import Mathlib

/-!
# Read model and specialised repository of the simplecqrs example

A shallow embedding of `examples/simplecqrs/simplecqrs/readmodel.go` and
`examples/simplecqrs/simplecqrs/inventoryitem_repo.go`.

Conventions of the embedding.

* The package-level variable `inMemoryDatabase` is passed explicitly: every
  handler takes the database before the call and returns the database after it.
  The database is taken to be initialised (non-nil), as it is after
  `NewReadModel` or `NewInventoryListView`.
* The records held by the database are reached through pointers in the source.
  Every pointer stored by the handlers comes from a fresh composite literal, so
  no record is reachable under two keys or at two list positions; a write
  through such a pointer is embedded as the replacement of the record at the
  place it was found.
* Go's `int` is embedded as `Int`, with the 64-bit two's-complement wrap-around
  made explicit at the two places where the source does arithmetic.
* The event types, `ycq.EventMessage` and the `ycq` repository are declared
  outside these two files.  Of them only what the two files use is embedded.
-/

set_option autoImplicit false

namespace SimpleCQRS

/-! ## Machine integers -/

/-- Smallest value of Go's 64-bit `int`. -/
def minInt : Int := -9223372036854775808

/-- Largest value of Go's 64-bit `int`. -/
def maxInt : Int := 9223372036854775807

/-- Values that a Go `int` can hold. -/
def IsInt (x : Int) : Prop := minInt ≤ x ∧ x ≤ maxInt

instance (x : Int) : Decidable (IsInt x) := by
  unfold IsInt; exact inferInstance

/-- Two's-complement wrap-around of a mathematical integer into the 64-bit range,
which is what `+` and `-` on Go's `int` compute. -/
def wrapInt (x : Int) : Int :=
  (x + 9223372036854775808) % 18446744073709551616 - 9223372036854775808

/-! ## Data model (`readmodel.go`, lines 18-30 and 174-185) -/

/-- Details held for an inventory item. -/
structure InventoryItemDetailsDto where
  ID : String
  Name : String
  CurrentCount : Int
  Version : Int
  deriving DecidableEq, Repr

/-- Lightweight lookup view of an inventory item. -/
structure InventoryItemListDto where
  ID : String
  Name : String
  deriving DecidableEq, Repr

/-- In-memory repository: `Details` is the Go map (absent keys map to `none`),
`List` is the Go slice. -/
structure InMemoryDatabase where
  Details : String → Option InventoryItemDetailsDto
  List : List InventoryItemListDto

/-- Constructor `NewInMemoryDatabase`: an empty map and a nil slice. -/
def NewInMemoryDatabase : InMemoryDatabase :=
  { Details := fun _ => none, List := [] }

/-! ## Events and messages -/

/-- Modelled from the spec: the event payloads, whose struct declarations are not
in the two source files.  One constructor per case of the type switches in
`readmodel.go`, carrying the fields the handlers read (`Name`, `NewName`,
`Count`); `other` stands for an event of any other dynamic type. -/
inductive Event where
  | InventoryItemCreated (Name : String)
  | InventoryItemRenamed (NewName : String)
  | InventoryItemDeactivated
  | ItemsRemovedFromInventory (Count : Int)
  | ItemsCheckedIntoInventory (Count : Int)
  | other (typeName : String)
  deriving DecidableEq, Repr

/-- Modelled from the spec: `ycq.EventMessage`, an event wrapped with its aggregate
identifier and its version.  `Version()` returns a `*int`, which may be nil. -/
structure EventMessage where
  AggregateID : String
  Event : Event
  Version : Option Int
  deriving DecidableEq, Repr

/-- How a call of a handler ends: it returns, it stops the process through
`log.Fatal`, or it panics on the dereference of a nil `*int`. -/
inductive Outcome where
  | returned
  | fatal (err : String)
  | nilDereference
  deriving DecidableEq, Repr

/-- Type of a projection handler with the database passed explicitly. -/
abbrev Handler := EventMessage → InMemoryDatabase → Outcome × InMemoryDatabase

/-! ## Read model facade (`readmodel.go`, lines 47-58) -/

/-- Method `GetInventoryItems`: the list of the database. -/
def ReadModel.GetInventoryItems (db : InMemoryDatabase) : List InventoryItemListDto :=
  db.List

/-- Method `GetInventoryItemDetails`: the record stored under `uuid`, or nil. -/
def ReadModel.GetInventoryItemDetails (uuid : String) (db : InMemoryDatabase) :
    Option InventoryItemDetailsDto :=
  match db.Details uuid with
  | some i => some i
  | none => none

/-! ## List view (`readmodel.go`, lines 75-111) -/

/-- Loop of the `InventoryItemRenamed` case: the first entry whose ID matches gets
the new name, then the loop breaks. -/
def InventoryListView.rename (id newName : String) :
    List InventoryItemListDto → List InventoryItemListDto
  | [] => []
  | v :: rest =>
    if v.ID = id then { v with Name := newName } :: rest
    else v :: InventoryListView.rename id newName rest

/-- Search loop of the `InventoryItemDeactivated` case, started at index `k`: the
index of the first entry whose ID matches, or `-1`. -/
def InventoryListView.search (id : String) : List InventoryItemListDto → Nat → Int
  | [], _ => -1
  | v :: rest, k => if v.ID = id then (k : Int) else InventoryListView.search id rest (k + 1)

/-- Method `InventoryListView.Handle`. -/
def InventoryListView.Handle : Handler := fun message db =>
  match message.Event with
  | .InventoryItemCreated name =>
    (.returned, { db with List := db.List ++ [{ ID := message.AggregateID, Name := name }] })
  | .InventoryItemRenamed newName =>
    (.returned, { db with List := InventoryListView.rename message.AggregateID newName db.List })
  | .InventoryItemDeactivated =>
    let i := InventoryListView.search message.AggregateID db.List 0
    if i ≥ 0 then
      (.returned, { db with List := db.List.take i.toNat ++ db.List.drop (i.toNat + 1) })
    else
      (.returned, db)
  | _ => (.returned, db)

/-! ## Detail view (`readmodel.go`, lines 119-172) -/

/-- Method `GetDetailsItem`: the stored record, or an error when the key is absent. -/
def InventoryItemDetailView.GetDetailsItem (id : String) (db : InMemoryDatabase) :
    Except String InventoryItemDetailsDto :=
  match db.Details id with
  | some d => .ok d
  | none => .error "did not find the original inventory this shouldn't not happen"

/-- Write through the pointer found under `id`: the record under `id` becomes `d`. -/
def InventoryItemDetailView.store (id : String) (d : InventoryItemDetailsDto)
    (db : InMemoryDatabase) : InMemoryDatabase :=
  { db with Details := Function.update db.Details id (some d) }

/-- Method `InventoryItemDetailView.Handle`. -/
def InventoryItemDetailView.Handle : Handler := fun message db =>
  match message.Event with
  | .InventoryItemCreated name =>
    (.returned, InventoryItemDetailView.store message.AggregateID
      { ID := message.AggregateID, Name := name, CurrentCount := 0, Version := 0 } db)
  | .InventoryItemRenamed newName =>
    match InventoryItemDetailView.GetDetailsItem message.AggregateID db with
    | .error err => (.fatal err, db)
    | .ok d =>
      let d1 := { d with Name := newName }
      match message.Version with
      | none => (.nilDereference, InventoryItemDetailView.store message.AggregateID d1 db)
      | some v =>
        (.returned, InventoryItemDetailView.store message.AggregateID { d1 with Version := v } db)
  | .ItemsRemovedFromInventory count =>
    match InventoryItemDetailView.GetDetailsItem message.AggregateID db with
    | .error err => (.fatal err, db)
    | .ok d =>
      (.returned, InventoryItemDetailView.store message.AggregateID
        { d with CurrentCount := wrapInt (d.CurrentCount - count) } db)
  | .ItemsCheckedIntoInventory count =>
    match InventoryItemDetailView.GetDetailsItem message.AggregateID db with
    | .error err => (.fatal err, db)
    | .ok d =>
      (.returned, InventoryItemDetailView.store message.AggregateID
        { d with CurrentCount := wrapInt (d.CurrentCount + count) } db)
  | .InventoryItemDeactivated =>
    (.returned, { db with Details := Function.update db.Details message.AggregateID none })
  | .other _ => (.returned, db)

/-! ## Delivery of messages to handlers -/

/-- One handler processes a sequence of messages in order; processing stops at the
first call that does not return. -/
def handleAll (h : Handler) : List EventMessage → InMemoryDatabase → Outcome × InMemoryDatabase
  | [], db => (.returned, db)
  | m :: ms, db =>
    match h m db with
    | (.returned, db1) => handleAll h ms db1
    | r => r

/-- Modelled from the spec: the event dispatcher of section 4.2, which is not in the
two source files.  Each handler in registration order processes the message,
synchronously; a handler that does not return ends the delivery. -/
def publish : List Handler → Handler
  | [], _, db => (.returned, db)
  | h :: hs, message, db =>
    match h message db with
    | (.returned, db1) => publish hs message db1
    | r => r

/-- Both views of `readmodel.go`, list view first. -/
def bothViews : List Handler := [InventoryListView.Handle, InventoryItemDetailView.Handle]

/-- Both views of `readmodel.go`, detail view first. -/
def bothViewsRev : List Handler := [InventoryItemDetailView.Handle, InventoryListView.Handle]

/-- Successive batches of messages processed by one handler, each batch in order. -/
def handleBatches (h : Handler) :
    List (List EventMessage) → InMemoryDatabase → Outcome × InMemoryDatabase
  | [], db => (.returned, db)
  | b :: bs, db =>
    match handleAll h b db with
    | (.returned, db1) => handleBatches h bs db1
    | r => r

/-! ## Specialised repository (`inventoryitem_repo.go`) -/

/-- A `*InventoryItem`: nil, or the address of an aggregate. -/
abbrev InventoryItemPtr := Option Nat

/-- Modelled from the spec: the value the generic repository returns, an interface
value whose dynamic type is decided by a type assertion in `Load`.  It is the nil
interface, a `*InventoryItem`, or a value of another dynamic type.  By section 4.1
the generic repository constructs the aggregate it hands back, so a `*InventoryItem`
it returns points to an aggregate: it is given by the address of that aggregate. -/
inductive AggregateValue where
  | nilInterface
  | inventoryItem (address : Nat)
  | otherType (typeName : String)
  deriving DecidableEq, Repr

/-- Modelled from the spec: the error kinds of section 7, declared in the `ycq`
package outside the two source files.  `ErrAggregateNotFound` is the dynamic type
`*ycq.ErrAggregateNotFound` tested in `Load`; `errorString` is an error built by
`fmt.Errorf`. -/
inductive Error where
  | ErrAggregateNotFound (AggregateType AggregateID : String)
  | ConcurrencyConflict (detail : String)
  | StoreFailure (detail : String)
  | errorString (text : String)
  deriving DecidableEq, Repr

/-- Result of `reflect.TypeOf(&InventoryItem{}).Elem().Name()`. -/
def inventoryItemTypeName : String := "InventoryItem"

/-- Arguments with which `Load` calls the generic repository. -/
def InventoryItemRepo.loadQuery (_aggregateType id : String) : String × String :=
  (inventoryItemTypeName, id)

/-- Lines 29-40 of `Load`: what is returned for the pair the generic repository gave. -/
def InventoryItemRepo.loadResult (ar : AggregateValue) (err : Option Error) :
    InventoryItemPtr × Option Error :=
  match err with
  | some (.ErrAggregateNotFound _ _) => (none, none)
  | some e => (none, some e)
  | none =>
    match ar with
    | .inventoryItem ret => (some ret, none)
    | _ => (none, some (.errorString
        ("Could not cast aggregate returned to type of " ++ inventoryItemTypeName)))

/-- Method `InventoryItemRepo.Load`; `repoLoad` is the `Load` of the generic
repository held in the field `repo`. -/
def InventoryItemRepo.Load (repoLoad : String → String → AggregateValue × Option Error)
    (aggregateType id : String) : InventoryItemPtr × Option Error :=
  let q := InventoryItemRepo.loadQuery aggregateType id
  let r := repoLoad q.1 q.2
  InventoryItemRepo.loadResult r.1 r.2

/-- Method `InventoryItemRepo.Save`; `repoSave` is the `Save` of the generic
repository held in the field `repo`, `expectedVersion` a `*int`. -/
def InventoryItemRepo.Save {Aggregate : Type} (repoSave : Aggregate → Option Int → Option Error)
    (aggregate : Aggregate) (expectedVersion : Option Int) : Option Error :=
  repoSave aggregate expectedVersion

/-! ## Scenarios and sample data used by the statements below -/

/-- A message carrying a version. -/
def versioned (id : String) (e : Event) (v : Int) : EventMessage :=
  { AggregateID := id, Event := e, Version := some v }

/-- Creation of `X` followed by its deactivation. -/
def createThenDeactivate (X name : String) (v0 v1 : Option Int) : List EventMessage :=
  [{ AggregateID := X, Event := .InventoryItemCreated name, Version := v0 },
   { AggregateID := X, Event := .InventoryItemDeactivated, Version := v1 }]

/-- A database holding one item, `Y`. -/
def sampleDatabase : InMemoryDatabase :=
  { Details := Function.update (fun _ => none) "Y"
      (some { ID := "Y", Name := "Bolt", CurrentCount := 5, Version := 3 }),
    List := [{ ID := "Y", Name := "Bolt" }] }

/-- Creation of `id` (version 0) followed by a check-in of `n` units (version 1). -/
def createThenCheckIn (id name : String) (n : Int) : List EventMessage :=
  [versioned id (.InventoryItemCreated name) 0, versioned id (.ItemsCheckedIntoInventory n) 1]

/-- A database holding one item, "A" named "Widget", with 10 units. -/
def widgetDatabase : InMemoryDatabase :=
  { Details := Function.update (fun _ => none) "A"
      (some { ID := "A", Name := "Widget", CurrentCount := 10, Version := 0 }),
    List := [{ ID := "A", Name := "Widget" }] }

/-- Events that update an existing record without removing it: rename, check-in
and removal of units. -/
def isUpdate : Event → Bool
  | .InventoryItemRenamed _ => true
  | .ItemsRemovedFromInventory _ => true
  | .ItemsCheckedIntoInventory _ => true
  | _ => false

/-- Stream of one identifier: its creation, then the given events, each with the
version it was committed at. -/
def eventStream (X name0 : String) (v0 : Int) (evs : List (Event × Int)) : List EventMessage :=
  versioned X (.InventoryItemCreated name0) v0 :: evs.map (fun p => versioned X p.1 p.2)

/-- Sum of the counts of the check-in events of a sequence. -/
def checkedInTotal : List (Event × Int) → Int
  | [] => 0
  | (.ItemsCheckedIntoInventory c, _) :: rest => c + checkedInTotal rest
  | _ :: rest => checkedInTotal rest

/-- Sum of the counts of the removal events of a sequence. -/
def removedTotal : List (Event × Int) → Int
  | [] => 0
  | (.ItemsRemovedFromInventory c, _) :: rest => c + removedTotal rest
  | _ :: rest => removedTotal rest

/-- New name of the last rename of a sequence, or `name0` when there is none. -/
def lastName (name0 : String) : List (Event × Int) → String
  | [] => name0
  | (.InventoryItemRenamed n, _) :: rest => lastName n rest
  | _ :: rest => lastName name0 rest

/-- The concrete scenario after the creation: check-in 10, rename, remove 3. -/
def scenarioEvents : List (Event × Int) :=
  [(.ItemsCheckedIntoInventory 10, 1), (.InventoryItemRenamed "Gadget", 2),
   (.ItemsRemovedFromInventory 3, 3)]

/-- Identifiers of the creation events of a sequence of messages, in order. -/
def createdIDs : List EventMessage → List String
  | [] => []
  | m :: ms =>
    match m.Event with
    | .InventoryItemCreated _ => m.AggregateID :: createdIDs ms
    | _ => createdIDs ms

/-- Relation between the list after and before a call of the list view, for each
type of event: a creation appends one entry; a rename keeps every position, each
holding the entry it held or that entry of the renamed identifier with the new
name; a deactivation leaves a sublist; any other event leaves the list as it is. -/
def listStep (m : EventMessage) (after before : List InventoryItemListDto) : Prop :=
  match m.Event with
  | .InventoryItemCreated name => after = before ++ [{ ID := m.AggregateID, Name := name }]
  | .InventoryItemRenamed newName =>
    List.Forall₂
      (fun a b => a = b ∨ (b.ID = m.AggregateID ∧ a = { ID := m.AggregateID, Name := newName }))
      after before
  | .InventoryItemDeactivated => List.Sublist after before
  | _ => after = before

/-- Presence of an identifier in the database: it is a key of the detail map or the
ID of an entry of the list. -/
def isPresent (X : String) (db : InMemoryDatabase) : Bool :=
  (db.Details X).isSome || db.List.any (fun e => decide (e.ID = X))

/-- No creation event of the sequence arrives for an identifier that is present in
the database at the time the event is published to `views`. -/
def freshCreations (views : List Handler) : List EventMessage → InMemoryDatabase → Bool
  | [], _ => true
  | m :: ms, db =>
    (match m.Event with
      | .InventoryItemCreated _ => !isPresent m.AggregateID db
      | _ => true)
    && freshCreations views ms (publish views m db).2

/-- Agreement of the two views: no two entries of the list have the same ID, the IDs
of the list are exactly the keys of the detail map, and every list entry has the name
of the detail record stored under its ID. -/
def viewsAgree (db : InMemoryDatabase) : Prop :=
  (db.List.map (fun e => e.ID)).Nodup
  ∧ (∀ id, id ∈ db.List.map (fun e => e.ID) ↔ (db.Details id).isSome = true)
  ∧ (∀ e ∈ db.List, ∃ d, db.Details e.ID = some d ∧ d.Name = e.Name)

/-- A sequence with two items: "A" is created, stocked and renamed, "B" is created,
"A" is deactivated. -/
def twoItemEvents : List EventMessage :=
  [versioned "A" (.InventoryItemCreated "Widget") 0,
   versioned "A" (.ItemsCheckedIntoInventory 10) 1,
   versioned "A" (.InventoryItemRenamed "Gadget") 2,
   versioned "B" (.InventoryItemCreated "Bolt") 0,
   versioned "A" .InventoryItemDeactivated 3]

/-- Call of `GetInventoryItems` with the database passed explicitly: the value
returned and the database after the call.  The body has no assignment. -/
def ReadModel.callGetInventoryItems (db : InMemoryDatabase) :
    List InventoryItemListDto × InMemoryDatabase :=
  (ReadModel.GetInventoryItems db, db)

/-- Call of `GetInventoryItemDetails` with the database passed explicitly: the value
returned and the database after the call.  The body has no assignment. -/
def ReadModel.callGetInventoryItemDetails (uuid : String) (db : InMemoryDatabase) :
    Option InventoryItemDetailsDto × InMemoryDatabase :=
  (ReadModel.GetInventoryItemDetails uuid db, db)

/-- Every record of the detail map carries the key it is stored under in its `ID`. -/
def keysMatchIDs (db : InMemoryDatabase) : Prop :=
  ∀ id d, db.Details id = some d → d.ID = id

/-- Two creations of `X` followed by its deactivation. -/
def createTwiceThenDeactivate (X n1 n2 : String) : List EventMessage :=
  [versioned X (.InventoryItemCreated n1) 0, versioned X (.InventoryItemCreated n2) 0,
   versioned X .InventoryItemDeactivated 1]

/-- A generic repository that answers with a value naming the query it received. -/
def echoRepository (typeName id : String) : AggregateValue × Option Error :=
  (.otherType (typeName ++ "/" ++ id), none)

/-! # Theorems -/

/-! ## Arithmetic of the wrap-around -/

theorem wrapInt_isInt (x : Int) : IsInt (wrapInt x) := by
  unfold IsInt wrapInt minInt maxInt
  omega

theorem wrapInt_of_isInt (x : Int) (h : IsInt x) : wrapInt x = x := by
  unfold IsInt minInt maxInt at h
  unfold wrapInt
  omega

theorem wrapInt_add_left (a b : Int) : wrapInt (wrapInt a + b) = wrapInt (a + b) := by
  unfold wrapInt
  omega

theorem wrapInt_sub_left (a b : Int) : wrapInt (wrapInt a - b) = wrapInt (a - b) := by
  unfold wrapInt
  omega

/-! ## Handlers, case by case -/

theorem listHandle_created (id name : String) (v : Option Int) (db : InMemoryDatabase) :
    InventoryListView.Handle ⟨id, .InventoryItemCreated name, v⟩ db
      = (.returned, { db with List := db.List ++ [{ ID := id, Name := name }] }) := rfl

theorem listHandle_renamed (id newName : String) (v : Option Int) (db : InMemoryDatabase) :
    InventoryListView.Handle ⟨id, .InventoryItemRenamed newName, v⟩ db
      = (.returned, { db with List := InventoryListView.rename id newName db.List }) := rfl

theorem listHandle_fst (m : EventMessage) (db : InMemoryDatabase) :
    (InventoryListView.Handle m db).1 = .returned := by
  obtain ⟨id, e, v⟩ := m
  cases e <;> simp [InventoryListView.Handle]
  split <;> rfl

theorem listHandle_details (m : EventMessage) (db : InMemoryDatabase) :
    (InventoryListView.Handle m db).2.Details = db.Details := by
  obtain ⟨id, e, v⟩ := m
  cases e <;> simp [InventoryListView.Handle]
  split <;> rfl

theorem detailHandle_list (m : EventMessage) (db : InMemoryDatabase) :
    (InventoryItemDetailView.Handle m db).2.List = db.List := by
  obtain ⟨id, e, v⟩ := m
  cases e <;> simp only [InventoryItemDetailView.Handle] <;>
    repeat (first | rfl | split)

theorem search_fresh (X name : String) (l : List InventoryItemListDto) (k : Nat)
    (h : ∀ e ∈ l, e.ID ≠ X) :
    InventoryListView.search X (l ++ [{ ID := X, Name := name }]) k = ((k + l.length : Nat) : Int) := by
  induction l generalizing k with
  | nil => simp [InventoryListView.search]
  | cons a l ih =>
    have ha : a.ID ≠ X := h a (List.mem_cons_self _ _)
    have hl : ∀ e ∈ l, e.ID ≠ X := fun e he => h e (List.mem_cons_of_mem _ he)
    rw [List.cons_append, InventoryListView.search, if_neg ha, ih (k + 1) hl, List.length_cons]
    congr 1
    omega

theorem listHandle_deactivated_fresh (X name : String) (v : Option Int) (db : InMemoryDatabase)
    (h : ∀ e ∈ db.List, e.ID ≠ X) :
    InventoryListView.Handle ⟨X, .InventoryItemDeactivated, v⟩
      { db with List := db.List ++ [{ ID := X, Name := name }] } = (.returned, db) := by
  simp [InventoryListView.Handle, search_fresh X name db.List 0 h]

theorem update_update_none {β : Type} (f : String → Option β) (X : String) (b : β)
    (h : f X = none) : Function.update (Function.update f X (some b)) X none = f := by
  funext k
  by_cases hk : k = X
  · subst hk; simp [h]
  · simp [Function.update_noteq hk]

theorem createThenDeactivate_restores (X name : String) (v0 v1 : Option Int)
    (db : InMemoryDatabase) (views : List Handler)
    (hViews : views = bothViews ∨ views = bothViewsRev)
    (hList : ∀ e ∈ db.List, e.ID ≠ X) (hDetails : db.Details X = none) :
    handleAll (publish views) (createThenDeactivate X name v0 v1) db = (.returned, db) := by
  rcases hViews with rfl | rfl
  · simp only [createThenDeactivate, handleAll, publish, bothViews, listHandle_created,
      InventoryItemDetailView.Handle, InventoryItemDetailView.store]
    have := listHandle_deactivated_fresh X name v1
      { db with Details := Function.update db.Details X (some ⟨X, name, 0, 0⟩) } hList
    simp only at this
    rw [this]
    simp only [update_update_none db.Details X _ hDetails]
  · simp only [createThenDeactivate, handleAll, publish, bothViewsRev, listHandle_created,
      InventoryItemDetailView.Handle, InventoryItemDetailView.store]
    have := listHandle_deactivated_fresh X name v1 db hList
    simp only [update_update_none db.Details X _ hDetails]
    rw [this]

/-! ## C1: deletion scenario -/

/-- Claim C1: when `X` is in neither view and both handlers (registered in either
order) process a creation of `X` and then a deactivation of `X`, both calls return,
no entry of `GetInventoryItems` has ID `X`, the detail map has no key `X`,
`GetInventoryItemDetails X` is nil, and the whole database (hence every entry of
every other identifier) is as before. -/
theorem deletion_scenario (X name : String) (v0 v1 : Option Int) (db : InMemoryDatabase)
    (views : List Handler) (hViews : views = bothViews ∨ views = bothViewsRev)
    (hList : ∀ e ∈ db.List, e.ID ≠ X) (hDetails : db.Details X = none) :
    (handleAll (publish views) (createThenDeactivate X name v0 v1) db).1 = .returned
    ∧ (∀ e ∈ ReadModel.GetInventoryItems
        (handleAll (publish views) (createThenDeactivate X name v0 v1) db).2, e.ID ≠ X)
    ∧ (handleAll (publish views) (createThenDeactivate X name v0 v1) db).2.Details X = none
    ∧ ReadModel.GetInventoryItemDetails X
        (handleAll (publish views) (createThenDeactivate X name v0 v1) db).2 = none
    ∧ (handleAll (publish views) (createThenDeactivate X name v0 v1) db).2 = db := by
  rw [createThenDeactivate_restores X name v0 v1 db views hViews hList hDetails]
  refine ⟨rfl, hList, hDetails, ?_, rfl⟩
  simp [ReadModel.GetInventoryItemDetails, hDetails]

/-- Witness of C1: item `X` created and deactivated in a database that holds `Y`. -/
theorem deletion_scenario_witness :
    (∀ e ∈ sampleDatabase.List, e.ID ≠ "X") ∧ sampleDatabase.Details "X" = none
    ∧ (∀ e ∈ ReadModel.GetInventoryItems (handleAll (publish bothViews)
        (createThenDeactivate "X" "Widget" (some 0) (some 1)) sampleDatabase).2, e.ID ≠ "X")
    ∧ ReadModel.GetInventoryItemDetails "X" (handleAll (publish bothViews)
        (createThenDeactivate "X" "Widget" (some 0) (some 1)) sampleDatabase).2 = none :=
  have h := deletion_scenario "X" "Widget" (some 0) (some 1) sampleDatabase bothViews
    (Or.inl rfl) (by simp [sampleDatabase]) (by decide)
  ⟨by simp [sampleDatabase], by decide, h.2.1, h.2.2.2.1⟩

/-! ## C2: check-in step -/

/-- Claim C2, evaluated on the code: after the creation of "A" named "Widget" and a
check-in of 10 units carried by a message with version 1, `GetInventoryItemDetails`
returns name "Widget" and count 10, but version 0 and not 1: the check-in case does
not write the `Version` field. -/
theorem checkin_step_keeps_version_zero :
    ReadModel.GetInventoryItemDetails "A"
        (handleAll InventoryItemDetailView.Handle (createThenCheckIn "A" "Widget" 10)
          NewInMemoryDatabase).2
      = some { ID := "A", Name := "Widget", CurrentCount := 10, Version := 0 }
    ∧ ReadModel.GetInventoryItemDetails "A"
        (handleAll InventoryItemDetailView.Handle (createThenCheckIn "A" "Widget" 10)
          NewInMemoryDatabase).2
      ≠ some { ID := "A", Name := "Widget", CurrentCount := 10, Version := 1 } := by
  decide

/-! ## C3: rename step -/

theorem rename_map_ID (X newName : String) (l : List InventoryItemListDto) :
    (InventoryListView.rename X newName l).map (fun e => e.ID) = l.map (fun e => e.ID) := by
  induction l with
  | nil => rfl
  | cons a l ih =>
    by_cases ha : a.ID = X
    · simp [InventoryListView.rename, ha]
    · simp [InventoryListView.rename, ha, ih]

theorem rename_find (X newName : String) (l : List InventoryItemListDto)
    (h : ∃ e ∈ l, e.ID = X) :
    (InventoryListView.rename X newName l).find? (fun e => decide (e.ID = X))
      = some { ID := X, Name := newName } := by
  induction l with
  | nil => simp at h
  | cons a l ih =>
    by_cases ha : a.ID = X
    · simp [InventoryListView.rename, ha]
    · have hl : ∃ e ∈ l, e.ID = X := by
        obtain ⟨e, he, heX⟩ := h
        rcases List.mem_cons.mp he with rfl | he
        · exact absurd heX ha
        · exact ⟨e, he, heX⟩
      simp [InventoryListView.rename, ha, ih hl]

theorem rename_unique (X newName : String) (l : List InventoryItemListDto)
    (h : l.countP (fun e => decide (e.ID = X)) = 1) :
    ∀ e ∈ InventoryListView.rename X newName l, e.ID = X → e.Name = newName := by
  induction l with
  | nil => simp at h
  | cons a l ih =>
    by_cases ha : a.ID = X
    · have h0 : l.countP (fun e => decide (e.ID = X)) = 0 := by
        simpa [List.countP_cons, ha] using h
      intro e he heX
      simp only [InventoryListView.rename, if_pos ha, List.mem_cons] at he
      rcases he with rfl | he
      · rfl
      · have := (List.countP_eq_zero.mp h0) e he
        simp [heX] at this
    · have h1 : l.countP (fun e => decide (e.ID = X)) = 1 := by
        simpa [List.countP_cons, ha] using h
      intro e he heX
      simp only [InventoryListView.rename, if_neg ha, List.mem_cons] at he
      rcases he with rfl | he
      · exact absurd heX ha
      · exact ih h1 e he heX

theorem publish_renamed (X newName : String) (v : Int) (db : InMemoryDatabase)
    (d : InventoryItemDetailsDto) (views : List Handler)
    (hViews : views = bothViews ∨ views = bothViewsRev) (hDetails : db.Details X = some d) :
    publish views (versioned X (.InventoryItemRenamed newName) v) db
      = (.returned,
         { Details := Function.update db.Details X
             (some { ID := d.ID, Name := newName, CurrentCount := d.CurrentCount, Version := v }),
           List := InventoryListView.rename X newName db.List }) := by
  rcases hViews with rfl | rfl <;>
    simp [publish, bothViews, bothViewsRev, versioned, InventoryListView.Handle,
      InventoryItemDetailView.Handle, InventoryItemDetailView.GetDetailsItem,
      InventoryItemDetailView.store, hDetails]

/-- Claim C3: when `X` has a detail record `d` and a list entry and both handlers
(registered in either order) process a rename of `X` to `newName` carried with
version `v`, both return; the detail record of `X` then has the new name and
version `v` with `ID` and `CurrentCount` as in `d`; the first list entry with ID
`X` is `X` with the new name, the IDs in the list are as before, and when `X` has
exactly one list entry every list entry with ID `X` carries the new name. -/
theorem rename_step (X newName : String) (v : Int) (db : InMemoryDatabase)
    (d : InventoryItemDetailsDto) (views : List Handler)
    (hViews : views = bothViews ∨ views = bothViewsRev)
    (hDetails : db.Details X = some d) (hList : ∃ e ∈ db.List, e.ID = X) :
    (publish views (versioned X (.InventoryItemRenamed newName) v) db).1 = .returned
    ∧ ReadModel.GetInventoryItemDetails X
        (publish views (versioned X (.InventoryItemRenamed newName) v) db).2
      = some { ID := d.ID, Name := newName, CurrentCount := d.CurrentCount, Version := v }
    ∧ (ReadModel.GetInventoryItems
        (publish views (versioned X (.InventoryItemRenamed newName) v) db).2).find?
          (fun e => decide (e.ID = X)) = some { ID := X, Name := newName }
    ∧ (ReadModel.GetInventoryItems
        (publish views (versioned X (.InventoryItemRenamed newName) v) db).2).map (fun e => e.ID)
      = db.List.map (fun e => e.ID)
    ∧ (db.List.countP (fun e => decide (e.ID = X)) = 1 →
        ∀ e ∈ ReadModel.GetInventoryItems
          (publish views (versioned X (.InventoryItemRenamed newName) v) db).2,
          e.ID = X → e.Name = newName) := by
  rw [publish_renamed X newName v db d views hViews hDetails]
  refine ⟨rfl, ?_, ?_, ?_, ?_⟩
  · simp [ReadModel.GetInventoryItemDetails]
  · exact rename_find X newName db.List hList
  · exact rename_map_ID X newName db.List
  · exact rename_unique X newName db.List

/-- Witness of C3: in the database holding "A" named "Widget", the rename to
"Gadget" at version 2 gives name "Gadget" and version 2 in both views. -/
theorem rename_step_witness :
    widgetDatabase.Details "A"
      = some { ID := "A", Name := "Widget", CurrentCount := 10, Version := 0 }
    ∧ (∃ e ∈ widgetDatabase.List, e.ID = "A")
    ∧ ReadModel.GetInventoryItemDetails "A"
        (publish bothViews (versioned "A" (.InventoryItemRenamed "Gadget") 2) widgetDatabase).2
      = some { ID := "A", Name := "Gadget", CurrentCount := 10, Version := 2 }
    ∧ (ReadModel.GetInventoryItems
        (publish bothViews (versioned "A" (.InventoryItemRenamed "Gadget") 2) widgetDatabase).2).find?
          (fun e => decide (e.ID = "A")) = some { ID := "A", Name := "Gadget" } :=
  have h := rename_step "A" "Gadget" 2 widgetDatabase
    { ID := "A", Name := "Widget", CurrentCount := 10, Version := 0 } bothViews (Or.inl rfl)
    (by decide) ⟨{ ID := "A", Name := "Widget" }, by simp [widgetDatabase], rfl⟩
  ⟨by decide, ⟨{ ID := "A", Name := "Widget" }, by simp [widgetDatabase], rfl⟩, h.2.1, h.2.2.1⟩

/-! ## C4: ordering and fold -/

theorem handleAll_append (h : Handler) (xs ys : List EventMessage) (db : InMemoryDatabase) :
    handleAll h (xs ++ ys) db
      = match handleAll h xs db with
        | (.returned, db1) => handleAll h ys db1
        | r => r := by
  induction xs generalizing db with
  | nil => rfl
  | cons m xs ih =>
    simp only [List.cons_append, handleAll]
    rcases hm : h m db with ⟨o, db1⟩
    cases o <;> simp [ih]

theorem handleBatches_join (h : Handler) (bs : List (List EventMessage)) (db : InMemoryDatabase) :
    handleBatches h bs db = handleAll h bs.flatten db := by
  induction bs generalizing db with
  | nil => rfl
  | cons b bs ih =>
    simp only [handleBatches, List.flatten_cons, handleAll_append]
    rcases hb : handleAll h b db with ⟨o, db1⟩
    cases o <;> simp [ih]

theorem store_store (X : String) (d d1 : InventoryItemDetailsDto) (db : InMemoryDatabase) :
    InventoryItemDetailView.store X d (InventoryItemDetailView.store X d1 db)
      = InventoryItemDetailView.store X d db := by
  simp [InventoryItemDetailView.store]

theorem store_self (X : String) (d : InventoryItemDetailsDto) (db : InMemoryDatabase)
    (h : db.Details X = some d) : InventoryItemDetailView.store X d db = db := by
  cases db with
  | mk det l =>
    simp only [InventoryItemDetailView.store] at *
    rw [← h, Function.update_eq_self]

theorem store_details_self (X : String) (d : InventoryItemDetailsDto) (db : InMemoryDatabase) :
    (InventoryItemDetailView.store X d db).Details X = some d := by
  simp [InventoryItemDetailView.store]

theorem wrapInt_fold_add (a c x y : Int) :
    wrapInt (wrapInt (a + c) + x - y) = wrapInt (a + (c + x) - y) := by
  unfold wrapInt
  omega

theorem wrapInt_fold_sub (a c x y : Int) :
    wrapInt (wrapInt (a - c) + x - y) = wrapInt (a + x - (c + y)) := by
  unfold wrapInt
  omega

theorem detail_updates (X : String) (evs : List (Event × Int))
    (hEv : ∀ p ∈ evs, isUpdate p.1 = true) (db : InMemoryDatabase)
    (d : InventoryItemDetailsDto) (hd : db.Details X = some d) :
    ∃ d1 : InventoryItemDetailsDto,
      handleAll InventoryItemDetailView.Handle (evs.map (fun p => versioned X p.1 p.2)) db
        = (.returned, InventoryItemDetailView.store X d1 db)
      ∧ d1.ID = d.ID
      ∧ wrapInt d1.CurrentCount
          = wrapInt (d.CurrentCount + checkedInTotal evs - removedTotal evs)
      ∧ (IsInt d.CurrentCount → IsInt d1.CurrentCount)
      ∧ d1.Name = lastName d.Name evs := by
  induction evs generalizing db d with
  | nil =>
    refine ⟨d, ?_, rfl, ?_, id, rfl⟩
    · simp [handleAll, store_self X d db hd]
    · simp [checkedInTotal, removedTotal]
  | cons p evs ih =>
    obtain ⟨e, v⟩ := p
    have hrest : ∀ p ∈ evs, isUpdate p.1 = true := fun p hp => hEv p (List.mem_cons_of_mem _ hp)
    have he : isUpdate e = true := hEv (e, v) (List.mem_cons_self _ _)
    cases e with
    | InventoryItemCreated n => simp [isUpdate] at he
    | InventoryItemDeactivated => simp [isUpdate] at he
    | other t => simp [isUpdate] at he
    | InventoryItemRenamed n =>
      obtain ⟨d1, hrun, hid, hcount, hint, hname⟩ :=
        ih hrest (InventoryItemDetailView.store X { d with Name := n, Version := v } db)
          { d with Name := n, Version := v } (store_details_self X _ db)
      refine ⟨d1, ?_, hid, ?_, hint, ?_⟩
      · simp only [List.map_cons, handleAll, versioned, InventoryItemDetailView.Handle,
          InventoryItemDetailView.GetDetailsItem, hd]
        simpa [versioned, store_store] using hrun
      · simpa [checkedInTotal, removedTotal] using hcount
      · simpa [lastName] using hname
    | ItemsRemovedFromInventory c =>
      obtain ⟨d1, hrun, hid, hcount, hint, hname⟩ :=
        ih hrest (InventoryItemDetailView.store X
            { d with CurrentCount := wrapInt (d.CurrentCount - c) } db)
          { d with CurrentCount := wrapInt (d.CurrentCount - c) } (store_details_self X _ db)
      refine ⟨d1, ?_, hid, ?_, fun _ => hint (wrapInt_isInt _), ?_⟩
      · simp only [List.map_cons, handleAll, versioned, InventoryItemDetailView.Handle,
          InventoryItemDetailView.GetDetailsItem, hd]
        simpa [versioned, store_store] using hrun
      · rw [hcount]
        simp only [checkedInTotal, removedTotal]
        exact wrapInt_fold_sub _ _ _ _
      · simpa [lastName] using hname
    | ItemsCheckedIntoInventory c =>
      obtain ⟨d1, hrun, hid, hcount, hint, hname⟩ :=
        ih hrest (InventoryItemDetailView.store X
            { d with CurrentCount := wrapInt (d.CurrentCount + c) } db)
          { d with CurrentCount := wrapInt (d.CurrentCount + c) } (store_details_self X _ db)
      refine ⟨d1, ?_, hid, ?_, fun _ => hint (wrapInt_isInt _), ?_⟩
      · simp only [List.map_cons, handleAll, versioned, InventoryItemDetailView.Handle,
          InventoryItemDetailView.GetDetailsItem, hd]
        simpa [versioned, store_store] using hrun
      · rw [hcount]
        simp only [checkedInTotal, removedTotal]
        exact wrapInt_fold_add _ _ _ _
      · simpa [lastName] using hname
/-- Claim C4: the detail view applied in order to the stream of `X` (its creation,
then renames, check-ins and removals) returns and leaves a record for `X` with ID
`X`, whose `CurrentCount` is the sum of the checked-in counts minus the sum of the
removed counts in Go's `int` arithmetic (the exact difference whenever that fits in
an `int`) and whose `Name` is the new name of the last rename, or `name0`; the
outcome and database are the same for every split of the stream into batches. -/
theorem ordering_fold (X name0 : String) (v0 : Int) (evs : List (Event × Int))
    (db : InMemoryDatabase) (hEv : ∀ p ∈ evs, isUpdate p.1 = true) :
    ∃ d : InventoryItemDetailsDto,
      (handleAll InventoryItemDetailView.Handle (eventStream X name0 v0 evs) db).1 = .returned
      ∧ ReadModel.GetInventoryItemDetails X
          (handleAll InventoryItemDetailView.Handle (eventStream X name0 v0 evs) db).2 = some d
      ∧ d.ID = X
      ∧ d.CurrentCount = wrapInt (checkedInTotal evs - removedTotal evs)
      ∧ (IsInt (checkedInTotal evs - removedTotal evs) →
          d.CurrentCount = checkedInTotal evs - removedTotal evs)
      ∧ d.Name = lastName name0 evs
      ∧ ∀ batches : List (List EventMessage),
          batches.flatten = eventStream X name0 v0 evs →
          handleBatches InventoryItemDetailView.Handle batches db
            = handleAll InventoryItemDetailView.Handle (eventStream X name0 v0 evs) db := by
  obtain ⟨d, hrun, hid, hcount, hint, hname⟩ :=
    detail_updates X evs hEv
      (InventoryItemDetailView.store X
        { ID := X, Name := name0, CurrentCount := 0, Version := 0 } db)
      { ID := X, Name := name0, CurrentCount := 0, Version := 0 } (store_details_self X _ db)
  have hfull : handleAll InventoryItemDetailView.Handle (eventStream X name0 v0 evs) db
      = (.returned, InventoryItemDetailView.store X d db) := by
    simp only [eventStream, handleAll, versioned, InventoryItemDetailView.Handle]
    simpa [versioned, store_store] using hrun
  have hzero : IsInt 0 := by decide
  have hrange : IsInt d.CurrentCount := hint hzero
  have hc : d.CurrentCount = wrapInt (checkedInTotal evs - removedTotal evs) := by
    rw [← wrapInt_of_isInt _ hrange, hcount]
    simp
  refine ⟨d, ?_, ?_, hid, hc, ?_, hname, ?_⟩
  · rw [hfull]
  · rw [hfull]
    simp [ReadModel.GetInventoryItemDetails, InventoryItemDetailView.store]
  · intro h
    rw [hc, wrapInt_of_isInt _ h]
  · intro batches hb
    rw [handleBatches_join, hb]

/-- Witness of C4: create, check-in 10, rename, remove 3 gives count 7 and the
new name. -/
theorem ordering_fold_witness :
    (∀ p ∈ scenarioEvents, isUpdate p.1 = true)
    ∧ ∃ d : InventoryItemDetailsDto,
        ReadModel.GetInventoryItemDetails "A"
          (handleAll InventoryItemDetailView.Handle (eventStream "A" "Widget" 0 scenarioEvents)
            NewInMemoryDatabase).2 = some d
        ∧ d.CurrentCount = 7 ∧ d.Name = "Gadget" :=
  have hEv : ∀ p ∈ scenarioEvents, isUpdate p.1 = true := by decide
  match ordering_fold "A" "Widget" 0 scenarioEvents NewInMemoryDatabase hEv with
  | ⟨d, _, hget, _, _, hexact, hname, _⟩ =>
    ⟨hEv, d, hget, (hexact (by decide)).trans (by decide), hname.trans (by decide)⟩

/-! ## C5: order of the list -/

theorem rename_forall₂ (X newName : String) (l : List InventoryItemListDto) :
    List.Forall₂
      (fun a b => a = b ∨ (b.ID = X ∧ a = { ID := X, Name := newName }))
      (InventoryListView.rename X newName l) l := by
  induction l with
  | nil => exact List.Forall₂.nil
  | cons a l ih =>
    by_cases ha : a.ID = X
    · simp only [InventoryListView.rename, if_pos ha]
      refine List.Forall₂.cons (Or.inr ⟨ha, ?_⟩) (List.forall₂_same.mpr fun _ _ => Or.inl rfl)
      simp [ha]
    · simp only [InventoryListView.rename, if_neg ha]
      exact List.Forall₂.cons (Or.inl rfl) ih

theorem take_drop_succ_sublist {α : Type} (l : List α) (i : Nat) :
    List.Sublist (l.take i ++ l.drop (i + 1)) l := by
  rw [← List.eraseIdx_eq_take_drop_succ]
  exact List.eraseIdx_sublist l i

theorem listHandle_step (m : EventMessage) (db : InMemoryDatabase) :
    listStep m (InventoryListView.Handle m db).2.List db.List := by
  obtain ⟨id, e, v⟩ := m
  cases e with
  | InventoryItemCreated n => simp [listStep, InventoryListView.Handle]
  | InventoryItemRenamed n =>
    simp only [listStep, InventoryListView.Handle]
    exact rename_forall₂ id n db.List
  | InventoryItemDeactivated =>
    simp only [listStep, InventoryListView.Handle]
    split
    · exact take_drop_succ_sublist db.List _
    · exact List.Sublist.refl _
  | ItemsRemovedFromInventory c => simp [listStep, InventoryListView.Handle]
  | ItemsCheckedIntoInventory c => simp [listStep, InventoryListView.Handle]
  | other t => simp [listStep, InventoryListView.Handle]

theorem listHandle_ids (m : EventMessage) (db : InMemoryDatabase) :
    List.Sublist ((InventoryListView.Handle m db).2.List.map (fun e => e.ID))
      (db.List.map (fun e => e.ID) ++ createdIDs [m]) := by
  obtain ⟨id, e, v⟩ := m
  cases e with
  | InventoryItemCreated n => simp [createdIDs, InventoryListView.Handle]
  | InventoryItemRenamed n =>
    simp [createdIDs, InventoryListView.Handle, rename_map_ID]
  | InventoryItemDeactivated =>
    simp only [createdIDs, InventoryListView.Handle, List.append_nil]
    split
    · exact (take_drop_succ_sublist db.List _).map _
    · exact List.Sublist.refl _
  | ItemsRemovedFromInventory c => simp [createdIDs, InventoryListView.Handle]
  | ItemsCheckedIntoInventory c => simp [createdIDs, InventoryListView.Handle]
  | other t => simp [createdIDs, InventoryListView.Handle]

theorem listHandle_ids_eq (m : EventMessage) (db : InMemoryDatabase)
    (h : m.Event ≠ .InventoryItemDeactivated) :
    (InventoryListView.Handle m db).2.List.map (fun e => e.ID)
      = db.List.map (fun e => e.ID) ++ createdIDs [m] := by
  obtain ⟨id, e, v⟩ := m
  cases e with
  | InventoryItemCreated n => simp [createdIDs, InventoryListView.Handle]
  | InventoryItemRenamed n =>
    simp [createdIDs, InventoryListView.Handle, rename_map_ID]
  | InventoryItemDeactivated => exact absurd rfl h
  | ItemsRemovedFromInventory c => simp [createdIDs, InventoryListView.Handle]
  | ItemsCheckedIntoInventory c => simp [createdIDs, InventoryListView.Handle]
  | other t => simp [createdIDs, InventoryListView.Handle]

theorem createdIDs_cons (m : EventMessage) (ms : List EventMessage) :
    createdIDs (m :: ms) = createdIDs [m] ++ createdIDs ms := by
  obtain ⟨id, e, v⟩ := m
  cases e <;> simp [createdIDs]

theorem handleAll_list_cons (m : EventMessage) (ms : List EventMessage) (db : InMemoryDatabase) :
    handleAll InventoryListView.Handle (m :: ms) db
      = handleAll InventoryListView.Handle ms (InventoryListView.Handle m db).2 := by
  have h := listHandle_fst m db
  rcases hm : InventoryListView.Handle m db with ⟨o, db1⟩
  rw [hm] at h
  simp only at h
  subst h
  simp [handleAll, hm]

theorem handleAll_list_fst (ms : List EventMessage) (db : InMemoryDatabase) :
    (handleAll InventoryListView.Handle ms db).1 = .returned := by
  induction ms generalizing db with
  | nil => rfl
  | cons m ms ih => rw [handleAll_list_cons]; exact ih _

theorem handleAll_list_ids (ms : List EventMessage) (db : InMemoryDatabase) :
    List.Sublist ((handleAll InventoryListView.Handle ms db).2.List.map (fun e => e.ID))
      (db.List.map (fun e => e.ID) ++ createdIDs ms) := by
  induction ms generalizing db with
  | nil => simp [handleAll, createdIDs]
  | cons m ms ih =>
    rw [handleAll_list_cons, createdIDs_cons, ← List.append_assoc]
    exact (ih _).trans ((listHandle_ids m db).append (List.Sublist.refl _))

theorem handleAll_list_ids_eq (ms : List EventMessage) (db : InMemoryDatabase)
    (h : ∀ m ∈ ms, m.Event ≠ .InventoryItemDeactivated) :
    (handleAll InventoryListView.Handle ms db).2.List.map (fun e => e.ID)
      = db.List.map (fun e => e.ID) ++ createdIDs ms := by
  induction ms generalizing db with
  | nil => simp [handleAll, createdIDs]
  | cons m ms ih =>
    rw [handleAll_list_cons, createdIDs_cons, ← List.append_assoc,
      ih _ (fun x hx => h x (List.mem_cons_of_mem _ hx)),
      listHandle_ids_eq m db (h m (List.mem_cons_self _ _))]

/-- Claim C5: for every database and message, the list after `InventoryListView.Handle`
relates to the list before as `listStep` says (the entries that remain keep their
relative order) and its IDs form a sublist of the IDs before followed by the created
ID; a creation event makes the list the old list followed by exactly the one entry
of the aggregate ID and the event name; and from the empty database the IDs of
`GetInventoryItems` form a sublist of the IDs of the creation events in their order,
all of them when no deactivation was processed. -/
theorem list_order (m : EventMessage) (db : InMemoryDatabase) (msgs : List EventMessage) :
    (InventoryListView.Handle m db).1 = .returned
    ∧ listStep m (ReadModel.GetInventoryItems (InventoryListView.Handle m db).2)
        (ReadModel.GetInventoryItems db)
    ∧ List.Sublist
        ((ReadModel.GetInventoryItems (InventoryListView.Handle m db).2).map (fun e => e.ID))
        ((ReadModel.GetInventoryItems db).map (fun e => e.ID) ++ createdIDs [m])
    ∧ (∀ name, m.Event = .InventoryItemCreated name →
        ReadModel.GetInventoryItems (InventoryListView.Handle m db).2
          = ReadModel.GetInventoryItems db ++ [{ ID := m.AggregateID, Name := name }])
    ∧ List.Sublist
        ((ReadModel.GetInventoryItems
          (handleAll InventoryListView.Handle msgs NewInMemoryDatabase).2).map (fun e => e.ID))
        (createdIDs msgs)
    ∧ ((∀ x ∈ msgs, x.Event ≠ .InventoryItemDeactivated) →
        (ReadModel.GetInventoryItems
          (handleAll InventoryListView.Handle msgs NewInMemoryDatabase).2).map (fun e => e.ID)
          = createdIDs msgs) := by
  refine ⟨listHandle_fst m db, listHandle_step m db, listHandle_ids m db, ?_, ?_, ?_⟩
  · intro name hname
    obtain ⟨id, e, v⟩ := m
    simp only at hname
    subst hname
    rfl
  · simpa [NewInMemoryDatabase] using handleAll_list_ids msgs NewInMemoryDatabase
  · intro h
    simpa [NewInMemoryDatabase] using handleAll_list_ids_eq msgs NewInMemoryDatabase h

/-- Witness of C5: from the empty database, the creation of "A" named "Widget"
gives exactly the list of the one entry "A", "Widget". -/
theorem list_order_witness :
    ReadModel.GetInventoryItems
        (InventoryListView.Handle (versioned "A" (.InventoryItemCreated "Widget") 0)
          NewInMemoryDatabase).2
      = [{ ID := "A", Name := "Widget" }] :=
  (list_order (versioned "A" (.InventoryItemCreated "Widget") 0) NewInMemoryDatabase []).2.2.2.1
    "Widget" rfl

/-! ## C6, C7, C8: results of the specialised repository -/

theorem load_eq (repoLoad : String → String → AggregateValue × Option Error)
    (aggregateType id : String) :
    InventoryItemRepo.Load repoLoad aggregateType id
      = InventoryItemRepo.loadResult (repoLoad inventoryItemTypeName id).1
          (repoLoad inventoryItemTypeName id).2 := rfl

/-- Claim C6: whenever the generic repository fails with `ErrAggregateNotFound`,
`Load` returns a nil aggregate and a nil error; `Load` returns that pair only then;
and whenever the error returned by `Load` is nil, the aggregate is nil exactly when
the generic repository failed with `ErrAggregateNotFound`. -/
theorem load_not_found (repoLoad : String → String → AggregateValue × Option Error)
    (aggregateType id : String) :
    (∀ t i, (repoLoad inventoryItemTypeName id).2 = some (.ErrAggregateNotFound t i) →
        InventoryItemRepo.Load repoLoad aggregateType id = (none, none))
    ∧ (InventoryItemRepo.Load repoLoad aggregateType id = (none, none) →
        ∃ t i, (repoLoad inventoryItemTypeName id).2 = some (.ErrAggregateNotFound t i))
    ∧ ((InventoryItemRepo.Load repoLoad aggregateType id).2 = none →
        ((InventoryItemRepo.Load repoLoad aggregateType id).1 = none ↔
          ∃ t i, (repoLoad inventoryItemTypeName id).2 = some (.ErrAggregateNotFound t i))) := by
  rw [load_eq]
  rcases repoLoad inventoryItemTypeName id with ⟨ar, err⟩
  refine ⟨?_, ?_, ?_⟩
  · intro t i h
    simp only at h
    subst h
    rfl
  · intro h
    cases err with
    | none => cases ar <;> simp [InventoryItemRepo.loadResult] at h
    | some e => cases e <;> simp [InventoryItemRepo.loadResult] at h ⊢
  · intro h
    cases err with
    | none => cases ar <;> simp [InventoryItemRepo.loadResult] at h ⊢
    | some e => cases e <;> simp [InventoryItemRepo.loadResult] at h ⊢

/-- Witness of C6: a generic repository that finds no stream. -/
theorem load_not_found_witness :
    InventoryItemRepo.Load
        (fun t i => (AggregateValue.nilInterface, some (Error.ErrAggregateNotFound t i)))
        "Anything" "42" = (none, none) :=
  (load_not_found (fun t i => (AggregateValue.nilInterface, some (Error.ErrAggregateNotFound t i)))
    "Anything" "42").1 inventoryItemTypeName "42" rfl

/-- Claim C7: when the generic repository succeeds with a value that is not a
`*InventoryItem`, `Load` returns a nil aggregate with a non-nil error (the error built
by `fmt.Errorf`); when the value is a `*InventoryItem`, `Load` returns that same
pointer with a nil error. -/
theorem load_type_mismatch (repoLoad : String → String → AggregateValue × Option Error)
    (aggregateType id : String) :
    (∀ ar, repoLoad inventoryItemTypeName id = (ar, none) → (∀ a, ar ≠ .inventoryItem a) →
        (InventoryItemRepo.Load repoLoad aggregateType id).1 = none
        ∧ (InventoryItemRepo.Load repoLoad aggregateType id).2 ≠ none
        ∧ (InventoryItemRepo.Load repoLoad aggregateType id).2
            = some (.errorString "Could not cast aggregate returned to type of InventoryItem"))
    ∧ (∀ a, repoLoad inventoryItemTypeName id = (.inventoryItem a, none) →
        InventoryItemRepo.Load repoLoad aggregateType id = (some a, none)) := by
  rw [load_eq]
  refine ⟨?_, ?_⟩
  · intro ar h hne
    rw [h]
    cases ar with
    | inventoryItem a => exact absurd rfl (hne a)
    | nilInterface => simp [InventoryItemRepo.loadResult]; decide
    | otherType t => simp [InventoryItemRepo.loadResult]; decide
  · intro a h
    rw [h]
    rfl

/-- Witness of C7: a generic repository that hands back a value of another type. -/
theorem load_type_mismatch_witness :
    (InventoryItemRepo.Load (fun _ _ => (AggregateValue.otherType "*Order", none)) "Order" "42").1
      = none
    ∧ (InventoryItemRepo.Load (fun _ _ => (AggregateValue.otherType "*Order", none)) "Order" "42").2
      ≠ none :=
  have h := (load_type_mismatch (fun _ _ => (AggregateValue.otherType "*Order", none))
    "Order" "42").1 (AggregateValue.otherType "*Order") rfl (by intro a; exact fun h => by cases h)
  ⟨h.1, h.2.1⟩

/-- Claim C8: an error of the generic repository that is not an `ErrAggregateNotFound`
is returned by `Load` unchanged with a nil aggregate; `Save` returns exactly what the
generic repository's `Save` returns for the same aggregate and expected version; so a
concurrency conflict stays a concurrency conflict on both paths. -/
theorem error_kinds_distinct {Aggregate : Type}
    (repoLoad : String → String → AggregateValue × Option Error)
    (repoSave : Aggregate → Option Int → Option Error)
    (aggregateType id : String) (aggregate : Aggregate) (expectedVersion : Option Int) :
    (∀ e, (repoLoad inventoryItemTypeName id).2 = some e →
        (∀ t i, e ≠ .ErrAggregateNotFound t i) →
        InventoryItemRepo.Load repoLoad aggregateType id = (none, some e))
    ∧ InventoryItemRepo.Save repoSave aggregate expectedVersion
        = repoSave aggregate expectedVersion
    ∧ (∀ detail, (repoLoad inventoryItemTypeName id).2 = some (.ConcurrencyConflict detail) →
        InventoryItemRepo.Load repoLoad aggregateType id
          = (none, some (.ConcurrencyConflict detail)))
    ∧ (∀ detail, repoSave aggregate expectedVersion = some (.ConcurrencyConflict detail) →
        InventoryItemRepo.Save repoSave aggregate expectedVersion
          = some (.ConcurrencyConflict detail)) := by
  have hload : ∀ e, (repoLoad inventoryItemTypeName id).2 = some e →
      (∀ t i, e ≠ .ErrAggregateNotFound t i) →
      InventoryItemRepo.Load repoLoad aggregateType id = (none, some e) := by
    intro e h hne
    rw [load_eq, h]
    cases e with
    | ErrAggregateNotFound t i => exact absurd rfl (hne t i)
    | ConcurrencyConflict d => rfl
    | StoreFailure d => rfl
    | errorString s => rfl
  refine ⟨hload, rfl, ?_, ?_⟩
  · intro detail h
    exact hload _ h (fun t i hc => by cases hc)
  · intro detail h
    exact h

/-- Witness of C8: a generic repository whose `Load` and `Save` fail with a
concurrency conflict. -/
theorem error_kinds_distinct_witness :
    InventoryItemRepo.Load
        (fun _ _ => (AggregateValue.nilInterface, some (Error.ConcurrencyConflict "v3")))
        "InventoryItem" "42" = (none, some (Error.ConcurrencyConflict "v3"))
    ∧ InventoryItemRepo.Save (fun (_ : Nat) _ => some (Error.ConcurrencyConflict "v3")) 7 (some 2)
      = some (Error.ConcurrencyConflict "v3") :=
  have h := error_kinds_distinct
    (fun _ _ => (AggregateValue.nilInterface, some (Error.ConcurrencyConflict "v3")))
    (fun (_ : Nat) _ => some (Error.ConcurrencyConflict "v3")) "InventoryItem" "42" 7 (some 2)
  ⟨h.2.2.1 "v3" rfl, h.2.2.2 "v3" rfl⟩

/-! ## C9: rename of an identifier missing from the list view -/

theorem rename_absent (X newName : String) (l : List InventoryItemListDto)
    (h : ∀ e ∈ l, e.ID ≠ X) : InventoryListView.rename X newName l = l := by
  induction l with
  | nil => rfl
  | cons a l ih =>
    have ha : a.ID ≠ X := h a (List.mem_cons_self _ _)
    simp only [InventoryListView.rename, if_neg ha,
      ih (fun e he => h e (List.mem_cons_of_mem _ he))]

theorem listHandle_renamed_absent (X newName : String) (v : Option Int) (db : InMemoryDatabase)
    (h : ∀ e ∈ db.List, e.ID ≠ X) :
    InventoryListView.Handle ⟨X, .InventoryItemRenamed newName, v⟩ db = (.returned, db) := by
  simp only [InventoryListView.Handle, rename_absent X newName db.List h]

/-- Claim C9, evaluated on the code: in a database that holds only "Y", a rename of
"X" processed by `InventoryListView.Handle` returns normally and leaves the database
as it was, where `InventoryItemDetailView.Handle` stops with the fatal error on the
same message. -/
theorem list_rename_missing_is_silent :
    (∀ e ∈ sampleDatabase.List, e.ID ≠ "X")
    ∧ InventoryListView.Handle (versioned "X" (.InventoryItemRenamed "Gadget") 1) sampleDatabase
        = (.returned, sampleDatabase)
    ∧ (InventoryItemDetailView.Handle (versioned "X" (.InventoryItemRenamed "Gadget") 1)
        sampleDatabase).1
        = .fatal "did not find the original inventory this shouldn't not happen" :=
  ⟨by simp [sampleDatabase],
   listHandle_renamed_absent "X" "Gadget" (some 1) sampleDatabase (by simp [sampleDatabase]),
   by decide⟩

/-! ## C10: update of an identifier missing from the detail view -/

/-- Claim C10: `GetDetailsItem` returns an error exactly when the detail map has no
key `id`, and the stored record otherwise; on a rename, removal or check-in event,
`InventoryItemDetailView.Handle` ends in the fatal branch exactly when the aggregate
identifier has no detail record, and then the database is unchanged. -/
theorem detail_missing_fails_loudly (id : String) (m : EventMessage) (db : InMemoryDatabase)
    (hm : isUpdate m.Event = true) :
    ((∃ err, InventoryItemDetailView.GetDetailsItem id db = .error err) ↔ db.Details id = none)
    ∧ (∀ d, db.Details id = some d → InventoryItemDetailView.GetDetailsItem id db = .ok d)
    ∧ ((∃ err, (InventoryItemDetailView.Handle m db).1 = .fatal err)
        ↔ db.Details m.AggregateID = none)
    ∧ (db.Details m.AggregateID = none → (InventoryItemDetailView.Handle m db).2 = db) := by
  refine ⟨?_, ?_, ?_, ?_⟩
  · cases h : db.Details id <;> simp [InventoryItemDetailView.GetDetailsItem, h]
  · intro d h
    simp [InventoryItemDetailView.GetDetailsItem, h]
  · obtain ⟨X, e, v⟩ := m
    cases e with
    | InventoryItemCreated n => simp [isUpdate] at hm
    | InventoryItemDeactivated => simp [isUpdate] at hm
    | other t => simp [isUpdate] at hm
    | InventoryItemRenamed n =>
      cases h : db.Details X <;> cases v <;>
        simp [InventoryItemDetailView.Handle, InventoryItemDetailView.GetDetailsItem, h]
    | ItemsRemovedFromInventory c =>
      cases h : db.Details X <;>
        simp [InventoryItemDetailView.Handle, InventoryItemDetailView.GetDetailsItem, h]
    | ItemsCheckedIntoInventory c =>
      cases h : db.Details X <;>
        simp [InventoryItemDetailView.Handle, InventoryItemDetailView.GetDetailsItem, h]
  · intro h
    obtain ⟨X, e, v⟩ := m
    cases e with
    | InventoryItemCreated n => simp [isUpdate] at hm
    | InventoryItemDeactivated => simp [isUpdate] at hm
    | other t => simp [isUpdate] at hm
    | InventoryItemRenamed n =>
      simp only at h
      simp [InventoryItemDetailView.Handle, InventoryItemDetailView.GetDetailsItem, h]
    | ItemsRemovedFromInventory c =>
      simp only at h
      simp [InventoryItemDetailView.Handle, InventoryItemDetailView.GetDetailsItem, h]
    | ItemsCheckedIntoInventory c =>
      simp only at h
      simp [InventoryItemDetailView.Handle, InventoryItemDetailView.GetDetailsItem, h]

/-- Witness of C10: a check-in for "X" in a database that holds only "Y" ends in the
fatal branch and leaves the database unchanged. -/
theorem detail_missing_fails_loudly_witness :
    isUpdate (versioned "X" (.ItemsCheckedIntoInventory 5) 1).Event = true
    ∧ sampleDatabase.Details "X" = none
    ∧ (∃ err, (InventoryItemDetailView.Handle (versioned "X" (.ItemsCheckedIntoInventory 5) 1)
        sampleDatabase).1 = .fatal err)
    ∧ (InventoryItemDetailView.Handle (versioned "X" (.ItemsCheckedIntoInventory 5) 1)
        sampleDatabase).2 = sampleDatabase :=
  have h := detail_missing_fails_loudly "X" (versioned "X" (.ItemsCheckedIntoInventory 5) 1)
    sampleDatabase rfl
  have hnone : sampleDatabase.Details "X" = none := by decide
  ⟨rfl, hnone, h.2.2.1.mpr hnone, h.2.2.2 hnone⟩

/-! ## C11: the two handlers are independent -/

theorem listHandle_same_of_count (id : String) (e : Event) (v : Option Int)
    (db : InMemoryDatabase)
    (h : (∃ c, e = .ItemsCheckedIntoInventory c) ∨ (∃ c, e = .ItemsRemovedFromInventory c)
      ∨ ∃ t, e = .other t) :
    InventoryListView.Handle ⟨id, e, v⟩ db = (.returned, db) := by
  rcases h with ⟨c, rfl⟩ | ⟨c, rfl⟩ | ⟨t, rfl⟩ <;> rfl

/-- Claim C11: for every database and message, `InventoryListView.Handle` leaves the
detail map as it was and `InventoryItemDetailView.Handle` leaves the list as it was;
`InventoryListView.Handle` returns with the whole database unchanged on a check-in and
on a removal event; and both handlers return with the whole database unchanged on an
event of any other type. -/
theorem handlers_independent (m : EventMessage) (db : InMemoryDatabase) :
    (InventoryListView.Handle m db).2.Details = db.Details
    ∧ (InventoryItemDetailView.Handle m db).2.List = db.List
    ∧ (∀ c, m.Event = .ItemsCheckedIntoInventory c →
        InventoryListView.Handle m db = (.returned, db))
    ∧ (∀ c, m.Event = .ItemsRemovedFromInventory c →
        InventoryListView.Handle m db = (.returned, db))
    ∧ (∀ t, m.Event = .other t →
        InventoryListView.Handle m db = (.returned, db)
        ∧ InventoryItemDetailView.Handle m db = (.returned, db)) := by
  refine ⟨listHandle_details m db, detailHandle_list m db, ?_, ?_, ?_⟩
  · intro c h
    obtain ⟨id, e, v⟩ := m
    exact listHandle_same_of_count id e v db (Or.inl ⟨c, h⟩)
  · intro c h
    obtain ⟨id, e, v⟩ := m
    exact listHandle_same_of_count id e v db (Or.inr (Or.inl ⟨c, h⟩))
  · intro t h
    obtain ⟨id, e, v⟩ := m
    refine ⟨listHandle_same_of_count id e v db (Or.inr (Or.inr ⟨t, h⟩)), ?_⟩
    simp only at h
    subst h
    rfl

/-- Witness of C11: a check-in for "Y" leaves the database of the list view as it
was, and the detail view leaves the list as it was. -/
theorem handlers_independent_witness :
    InventoryListView.Handle (versioned "Y" (.ItemsCheckedIntoInventory 4) 4) sampleDatabase
      = (.returned, sampleDatabase)
    ∧ (InventoryItemDetailView.Handle (versioned "Y" (.ItemsCheckedIntoInventory 4) 4)
        sampleDatabase).2.List = sampleDatabase.List :=
  have h := handlers_independent (versioned "Y" (.ItemsCheckedIntoInventory 4) 4) sampleDatabase
  ⟨h.2.2.1 4 rfl, h.2.1⟩

/-! ## C12: isolation between identifiers -/

theorem search_eraseP (X : String) (l : List InventoryItemListDto) (k : Nat) :
    (InventoryListView.search X l k = -1
      ∧ l.eraseP (fun e => decide (e.ID = X)) = l)
    ∨ ∃ i : Nat, InventoryListView.search X l k = ((k + i : Nat) : Int)
      ∧ l.take i ++ l.drop (i + 1) = l.eraseP (fun e => decide (e.ID = X)) := by
  induction l generalizing k with
  | nil => exact Or.inl ⟨rfl, rfl⟩
  | cons a l ih =>
    by_cases ha : a.ID = X
    · refine Or.inr ⟨0, ?_, ?_⟩
      · simp [InventoryListView.search, ha]
      · simp [List.eraseP_cons, ha]
    · rcases ih (k + 1) with ⟨hs, he⟩ | ⟨i, hs, he⟩
      · refine Or.inl ⟨?_, ?_⟩
        · simp [InventoryListView.search, ha, hs]
        · simp [List.eraseP_cons, ha, he]
      · refine Or.inr ⟨i + 1, ?_, ?_⟩
        · simp only [InventoryListView.search, if_neg ha, hs]
          congr 1
          omega
        · simp [List.eraseP_cons, ha, he]

theorem listHandle_deactivated (X : String) (v : Option Int) (db : InMemoryDatabase) :
    InventoryListView.Handle ⟨X, .InventoryItemDeactivated, v⟩ db
      = (.returned, { db with List := db.List.eraseP (fun e => decide (e.ID = X)) }) := by
  rcases search_eraseP X db.List 0 with ⟨hs, he⟩ | ⟨i, hs, he⟩
  · simp [InventoryListView.Handle, hs, he]
  · simp [InventoryListView.Handle, hs, he]

theorem filter_ne_eraseP (X : String) (l : List InventoryItemListDto) :
    (l.eraseP (fun e => decide (e.ID = X))).filter (fun e => decide (e.ID ≠ X))
      = l.filter (fun e => decide (e.ID ≠ X)) := by
  induction l with
  | nil => rfl
  | cons a l ih =>
    by_cases ha : a.ID = X
    · simp [List.eraseP_cons, ha]
    · simpa [List.eraseP_cons, ha] using ih

theorem filter_ne_rename (X newName : String) (l : List InventoryItemListDto) :
    (InventoryListView.rename X newName l).filter (fun e => decide (e.ID ≠ X))
      = l.filter (fun e => decide (e.ID ≠ X)) := by
  induction l with
  | nil => rfl
  | cons a l ih =>
    by_cases ha : a.ID = X
    · simp [InventoryListView.rename, ha]
    · simpa [InventoryListView.rename, ha] using ih

theorem listHandle_filter_ne (m : EventMessage) (db : InMemoryDatabase) :
    (InventoryListView.Handle m db).2.List.filter (fun e => decide (e.ID ≠ m.AggregateID))
      = db.List.filter (fun e => decide (e.ID ≠ m.AggregateID)) := by
  obtain ⟨X, e, v⟩ := m
  cases e with
  | InventoryItemCreated n => simp [InventoryListView.Handle]
  | InventoryItemRenamed n => simpa [InventoryListView.Handle] using filter_ne_rename X n db.List
  | InventoryItemDeactivated =>
    rw [listHandle_deactivated]
    exact filter_ne_eraseP X db.List
  | ItemsRemovedFromInventory c => rfl
  | ItemsCheckedIntoInventory c => rfl
  | other t => rfl

theorem filter_eq_of_filter_ne (X Y : String) (hY : Y ≠ X) (l1 l2 : List InventoryItemListDto)
    (h : l1.filter (fun e => decide (e.ID ≠ X)) = l2.filter (fun e => decide (e.ID ≠ X))) :
    l1.filter (fun e => decide (e.ID = Y)) = l2.filter (fun e => decide (e.ID = Y)) := by
  have key : ∀ l : List InventoryItemListDto,
      (l.filter (fun e => decide (e.ID ≠ X))).filter (fun e => decide (e.ID = Y))
        = l.filter (fun e => decide (e.ID = Y)) := by
    intro l
    rw [List.filter_filter]
    apply List.filter_congr
    intro e _
    by_cases he : e.ID = Y
    · simp [he, hY]
    · simp [he]
  rw [← key l1, ← key l2, h]

theorem detailHandle_details_ne (m : EventMessage) (db : InMemoryDatabase) (Y : String)
    (hY : Y ≠ m.AggregateID) :
    (InventoryItemDetailView.Handle m db).2.Details Y = db.Details Y := by
  obtain ⟨X, e, v⟩ := m
  simp only at hY
  cases e with
  | InventoryItemCreated n =>
    simp [InventoryItemDetailView.Handle, InventoryItemDetailView.store, Function.update_noteq hY]
  | InventoryItemRenamed n =>
    cases h : db.Details X <;> cases v <;>
      simp [InventoryItemDetailView.Handle, InventoryItemDetailView.GetDetailsItem,
        InventoryItemDetailView.store, h, Function.update_noteq hY]
  | InventoryItemDeactivated =>
    simp [InventoryItemDetailView.Handle, Function.update_noteq hY]
  | ItemsRemovedFromInventory c =>
    cases h : db.Details X <;>
      simp [InventoryItemDetailView.Handle, InventoryItemDetailView.GetDetailsItem,
        InventoryItemDetailView.store, h, Function.update_noteq hY]
  | ItemsCheckedIntoInventory c =>
    cases h : db.Details X <;>
      simp [InventoryItemDetailView.Handle, InventoryItemDetailView.GetDetailsItem,
        InventoryItemDetailView.store, h, Function.update_noteq hY]
  | other t => rfl

/-- Claim C12: for every database, every message with aggregate identifier `X` and
every identifier `Y` other than `X`, after either handler has processed the message
the detail record of `Y` is what it was (absent, or the same record), the entries of
the list with an ID other than `X` are the same entries in the same order, and so
are in particular the entries with ID `Y`. -/
theorem per_identifier_isolation (m : EventMessage) (db : InMemoryDatabase) (Y : String)
    (h : Handler) (hh : h = InventoryListView.Handle ∨ h = InventoryItemDetailView.Handle)
    (hY : Y ≠ m.AggregateID) :
    ReadModel.GetInventoryItemDetails Y (h m db).2 = ReadModel.GetInventoryItemDetails Y db
    ∧ (ReadModel.GetInventoryItems (h m db).2).filter (fun e => decide (e.ID ≠ m.AggregateID))
        = (ReadModel.GetInventoryItems db).filter (fun e => decide (e.ID ≠ m.AggregateID))
    ∧ (ReadModel.GetInventoryItems (h m db).2).filter (fun e => decide (e.ID = Y))
        = (ReadModel.GetInventoryItems db).filter (fun e => decide (e.ID = Y)) := by
  have hlist : (h m db).2.List.filter (fun e => decide (e.ID ≠ m.AggregateID))
      = db.List.filter (fun e => decide (e.ID ≠ m.AggregateID)) := by
    rcases hh with rfl | rfl
    · exact listHandle_filter_ne m db
    · rw [detailHandle_list]
  have hdet : (h m db).2.Details Y = db.Details Y := by
    rcases hh with rfl | rfl
    · rw [listHandle_details]
    · exact detailHandle_details_ne m db Y hY
  refine ⟨?_, hlist, filter_eq_of_filter_ne m.AggregateID Y hY _ _ hlist⟩
  simp only [ReadModel.GetInventoryItemDetails, hdet]

/-- Witness of C12: the creation of "A" processed by the list view leaves the record
and the list entry of "Y" in the database that holds "Y" as they were. -/
theorem per_identifier_isolation_witness :
    "Y" ≠ (versioned "A" (.InventoryItemCreated "Widget") 0).AggregateID
    ∧ ReadModel.GetInventoryItemDetails "Y"
        (InventoryListView.Handle (versioned "A" (.InventoryItemCreated "Widget") 0)
          sampleDatabase).2
      = ReadModel.GetInventoryItemDetails "Y" sampleDatabase
    ∧ (ReadModel.GetInventoryItems
        (InventoryListView.Handle (versioned "A" (.InventoryItemCreated "Widget") 0)
          sampleDatabase).2).filter (fun e => decide (e.ID = "Y"))
      = (ReadModel.GetInventoryItems sampleDatabase).filter (fun e => decide (e.ID = "Y")) :=
  have h := per_identifier_isolation (versioned "A" (.InventoryItemCreated "Widget") 0)
    sampleDatabase "Y" InventoryListView.Handle (Or.inl rfl) (by decide)
  ⟨by decide, h.1, h.2.2⟩

/-! ## C13: the two views agree -/

theorem listHandle_list_congr (m : EventMessage) (db1 db2 : InMemoryDatabase)
    (h : db1.List = db2.List) :
    (InventoryListView.Handle m db1).2.List = (InventoryListView.Handle m db2).2.List := by
  obtain ⟨X, e, v⟩ := m
  cases e with
  | InventoryItemDeactivated => simp [listHandle_deactivated, h]
  | InventoryItemCreated n => simp [InventoryListView.Handle, h]
  | InventoryItemRenamed n => simp [InventoryListView.Handle, h]
  | ItemsRemovedFromInventory c => simpa [InventoryListView.Handle] using h
  | ItemsCheckedIntoInventory c => simpa [InventoryListView.Handle] using h
  | other t => simpa [InventoryListView.Handle] using h

theorem detailHandle_congr (m : EventMessage) (db1 db2 : InMemoryDatabase)
    (h : db1.Details = db2.Details) :
    (InventoryItemDetailView.Handle m db1).1 = (InventoryItemDetailView.Handle m db2).1
    ∧ (InventoryItemDetailView.Handle m db1).2.Details
        = (InventoryItemDetailView.Handle m db2).2.Details := by
  obtain ⟨det1, l1⟩ := db1
  obtain ⟨det2, l2⟩ := db2
  simp only at h
  subst h
  obtain ⟨X, e, v⟩ := m
  cases e with
  | InventoryItemCreated n =>
    simp [InventoryItemDetailView.Handle, InventoryItemDetailView.store]
  | InventoryItemRenamed n =>
    cases hD : det1 X <;> cases v <;>
      simp [InventoryItemDetailView.Handle, InventoryItemDetailView.GetDetailsItem,
        InventoryItemDetailView.store, hD]
  | InventoryItemDeactivated => simp [InventoryItemDetailView.Handle]
  | ItemsRemovedFromInventory c =>
    cases hD : det1 X <;>
      simp [InventoryItemDetailView.Handle, InventoryItemDetailView.GetDetailsItem,
        InventoryItemDetailView.store, hD]
  | ItemsCheckedIntoInventory c =>
    cases hD : det1 X <;>
      simp [InventoryItemDetailView.Handle, InventoryItemDetailView.GetDetailsItem,
        InventoryItemDetailView.store, hD]
  | other t => simp [InventoryItemDetailView.Handle]

theorem database_eq (db : InMemoryDatabase) (det : String → Option InventoryItemDetailsDto)
    (l : List InventoryItemListDto) (hd : db.Details = det) (hl : db.List = l) :
    db = { Details := det, List := l } := by
  cases db
  simp only at hd hl
  subst hd hl
  rfl

theorem publish_returned (views : List Handler)
    (hViews : views = bothViews ∨ views = bothViewsRev)
    (m : EventMessage) (db db1 : InMemoryDatabase)
    (h : publish views m db = (.returned, db1)) :
    (InventoryItemDetailView.Handle m db).1 = .returned
    ∧ db1 = { Details := (InventoryItemDetailView.Handle m db).2.Details,
              List := (InventoryListView.Handle m db).2.List } := by
  rcases hViews with rfl | rfl
  · have hl1 := listHandle_fst m db
    rcases hL : InventoryListView.Handle m db with ⟨o, dbl⟩
    rw [hL] at hl1
    simp only at hl1
    subst hl1
    have hdl : dbl.Details = db.Details := by
      have := listHandle_details m db
      rwa [hL] at this
    obtain ⟨hc1, hc2⟩ := detailHandle_congr m dbl db hdl
    have hdlist := detailHandle_list m dbl
    rcases hD : InventoryItemDetailView.Handle m dbl with ⟨o2, dbd⟩
    rw [hD] at hc1 hc2 hdlist
    simp only at hc1 hc2 hdlist
    simp only [publish, bothViews, hL, hD] at h
    cases o2 with
    | returned =>
      simp only [Prod.mk.injEq, true_and] at h
      subst h
      exact ⟨hc1.symm, database_eq _ _ _ hc2 hdlist⟩
    | fatal err => simp at h
    | nilDereference => simp at h
  · have hdlist := detailHandle_list m db
    rcases hD : InventoryItemDetailView.Handle m db with ⟨o, dbd⟩
    rw [hD] at hdlist
    simp only at hdlist
    simp only [publish, bothViewsRev, hD] at h
    cases o with
    | returned =>
      simp only at h
      have hl1 := listHandle_fst m dbd
      have hld := listHandle_details m dbd
      have hll := listHandle_list_congr m dbd db hdlist
      rcases hL : InventoryListView.Handle m dbd with ⟨o2, dbl⟩
      rw [hL] at hl1 hld hll h
      simp only at hl1 hld hll h
      subst hl1
      simp only [Prod.mk.injEq, true_and] at h
      subst h
      exact ⟨rfl, database_eq _ _ _ hld hll⟩
    | fatal err => simp at h
    | nilDereference => simp at h

theorem mem_rename (X newName : String) (l : List InventoryItemListDto)
    (hnd : (l.map (fun e => e.ID)).Nodup) :
    ∀ e ∈ InventoryListView.rename X newName l,
      (e ∈ l ∧ e.ID ≠ X) ∨ (e.ID = X ∧ e.Name = newName) := by
  induction l with
  | nil => intro e he; simp [InventoryListView.rename] at he
  | cons a l ih =>
    rw [List.map_cons, List.nodup_cons] at hnd
    intro e he
    by_cases ha : a.ID = X
    · simp only [InventoryListView.rename, if_pos ha, List.mem_cons] at he
      rcases he with rfl | he
      · exact Or.inr ⟨ha, rfl⟩
      · refine Or.inl ⟨List.mem_cons_of_mem _ he, ?_⟩
        intro heX
        exact hnd.1 (List.mem_map.mpr ⟨e, he, heX.trans ha.symm⟩)
    · simp only [InventoryListView.rename, if_neg ha, List.mem_cons] at he
      rcases he with rfl | he
      · exact Or.inl ⟨List.mem_cons_self _ _, ha⟩
      · rcases ih hnd.2 e he with ⟨h1, h2⟩ | h
        · exact Or.inl ⟨List.mem_cons_of_mem _ h1, h2⟩
        · exact Or.inr h

theorem eraseP_no_match (X : String) (l : List InventoryItemListDto)
    (hnd : (l.map (fun e => e.ID)).Nodup) :
    ∀ e ∈ l.eraseP (fun e => decide (e.ID = X)), e.ID ≠ X := by
  induction l with
  | nil => intro e he; simp at he
  | cons a l ih =>
    rw [List.map_cons, List.nodup_cons] at hnd
    intro e he
    by_cases ha : a.ID = X
    · simp only [List.eraseP_cons, ha, decide_True, cond_true] at he
      intro heX
      exact hnd.1 (List.mem_map.mpr ⟨e, he, heX.trans ha.symm⟩)
    · simp only [List.eraseP_cons, ha, decide_False, cond_false, List.mem_cons] at he
      rcases he with rfl | he
      · exact ha
      · exact ih hnd.2 e he

theorem mem_eraseP_of_ne (X : String) (l : List InventoryItemListDto)
    (e : InventoryItemListDto) (he : e.ID ≠ X) :
    e ∈ l.eraseP (fun e => decide (e.ID = X)) ↔ e ∈ l := by
  simp [he]

theorem isPresent_false (X : String) (db : InMemoryDatabase) (h : isPresent X db = false) :
    db.Details X = none ∧ ∀ e ∈ db.List, e.ID ≠ X := by
  simp only [isPresent, Bool.or_eq_false_iff] at h
  refine ⟨?_, ?_⟩
  · cases hD : db.Details X with
    | none => rfl
    | some d => simp [hD] at h
  · intro e he heX
    have := h.2
    simp only [List.any_eq_false] at this
    exact this e he (by simpa using heX)

theorem step_created (X n : String) (db : InMemoryDatabase) (I : viewsAgree db)
    (hfresh : isPresent X db = false) :
    viewsAgree
      { Details := Function.update db.Details X
          (some { ID := X, Name := n, CurrentCount := 0, Version := 0 }),
        List := db.List ++ [{ ID := X, Name := n }] } := by
  obtain ⟨hnd, hkeys, hnames⟩ := I
  obtain ⟨hD, hL⟩ := isPresent_false X db hfresh
  have hX : X ∉ db.List.map (fun e => e.ID) := by
    intro hmem
    obtain ⟨e, he, heX⟩ := List.mem_map.mp hmem
    exact hL e he heX
  refine ⟨?_, ?_, ?_⟩
  · simp only [List.map_append, List.map_cons, List.map_nil]
    refine List.Nodup.append hnd (List.nodup_singleton _) ?_
    intro id h1 h2
    rw [List.mem_singleton] at h2
    subst h2
    exact hX h1
  · intro id
    by_cases hid : id = X
    · subst hid
      simp
    · simp only [List.map_append, List.map_cons, List.map_nil, List.mem_append,
        List.mem_singleton, hid, or_false, Function.update_noteq hid]
      exact hkeys id
  · intro e he
    simp only [List.mem_append, List.mem_singleton] at he
    rcases he with he | rfl
    · have hne : e.ID ≠ X := hL e he
      simp only [Function.update_noteq hne]
      exact hnames e he
    · exact ⟨{ ID := X, Name := n, CurrentCount := 0, Version := 0 }, by simp, rfl⟩

theorem step_updated (X : String) (d d1 : InventoryItemDetailsDto) (db : InMemoryDatabase)
    (I : viewsAgree db) (hD : db.Details X = some d) (hname : d1.Name = d.Name) :
    viewsAgree { Details := Function.update db.Details X (some d1), List := db.List } := by
  obtain ⟨hnd, hkeys, hnames⟩ := I
  refine ⟨hnd, ?_, ?_⟩
  · intro id
    by_cases hid : id = X
    · subst hid
      simpa [hD] using hkeys id
    · simp only [Function.update_noteq hid]
      exact hkeys id
  · intro e he
    obtain ⟨d2, hd2, hn2⟩ := hnames e he
    by_cases hid : e.ID = X
    · rw [hid] at hd2 ⊢
      rw [hD] at hd2
      cases hd2
      exact ⟨d1, by simp, hname.trans hn2⟩
    · exact ⟨d2, by simp [Function.update_noteq hid, hd2], hn2⟩

theorem step_renamed (X n : String) (d d1 : InventoryItemDetailsDto) (db : InMemoryDatabase)
    (I : viewsAgree db) (hD : db.Details X = some d) (hname : d1.Name = n) :
    viewsAgree
      { Details := Function.update db.Details X (some d1),
        List := InventoryListView.rename X n db.List } := by
  obtain ⟨hnd, hkeys, hnames⟩ := I
  refine ⟨?_, ?_, ?_⟩
  · simpa only [rename_map_ID] using hnd
  · intro id
    simp only [rename_map_ID]
    by_cases hid : id = X
    · subst hid
      simpa [hD] using hkeys id
    · simp only [Function.update_noteq hid]
      exact hkeys id
  · intro e he
    rcases mem_rename X n db.List hnd e he with ⟨hmem, hne⟩ | ⟨heX, hen⟩
    · obtain ⟨d2, hd2, hn2⟩ := hnames e hmem
      exact ⟨d2, by simp [Function.update_noteq hne, hd2], hn2⟩
    · exact ⟨d1, by rw [heX]; simp, hname.trans hen.symm⟩

theorem step_deactivated (X : String) (db : InMemoryDatabase) (I : viewsAgree db) :
    viewsAgree
      { Details := Function.update db.Details X none,
        List := db.List.eraseP (fun e => decide (e.ID = X)) } := by
  obtain ⟨hnd, hkeys, hnames⟩ := I
  refine ⟨?_, ?_, ?_⟩
  · exact List.Nodup.sublist ((List.eraseP_sublist db.List).map (fun e => e.ID)) hnd
  · intro id
    by_cases hid : id = X
    · subst hid
      simp only [Function.update_same, Option.isSome_none, Bool.false_eq_true, iff_false]
      intro hmem
      obtain ⟨e, he, heX⟩ := List.mem_map.mp hmem
      exact eraseP_no_match id db.List hnd e he heX
    · simp only [Function.update_noteq hid]
      rw [← hkeys id]
      constructor
      · intro hmem
        obtain ⟨e, he, heX⟩ := List.mem_map.mp hmem
        exact List.mem_map.mpr ⟨e, List.mem_of_mem_eraseP he, heX⟩
      · intro hmem
        obtain ⟨e, he, heX⟩ := List.mem_map.mp hmem
        refine List.mem_map.mpr ⟨e, ?_, heX⟩
        exact (mem_eraseP_of_ne X db.List e (by rw [heX]; exact hid)).mpr he
  · intro e he
    have hne : e.ID ≠ X := eraseP_no_match X db.List hnd e he
    obtain ⟨d2, hd2, hn2⟩ := hnames e (List.mem_of_mem_eraseP he)
    exact ⟨d2, by simp [Function.update_noteq hne, hd2], hn2⟩

theorem step_viewsAgree (m : EventMessage) (db : InMemoryDatabase) (I : viewsAgree db)
    (hret : (InventoryItemDetailView.Handle m db).1 = .returned)
    (hfresh : (match m.Event with
      | .InventoryItemCreated _ => !isPresent m.AggregateID db
      | _ => true) = true) :
    viewsAgree
      { Details := (InventoryItemDetailView.Handle m db).2.Details,
        List := (InventoryListView.Handle m db).2.List } := by
  obtain ⟨X, e, v⟩ := m
  cases e with
  | InventoryItemCreated n =>
    simp only [Bool.not_eq_true'] at hfresh
    exact step_created X n db I hfresh
  | InventoryItemRenamed n =>
    cases hD : db.Details X with
    | none =>
      simp [InventoryItemDetailView.Handle, InventoryItemDetailView.GetDetailsItem, hD] at hret
    | some d =>
      cases v with
      | none =>
        simp [InventoryItemDetailView.Handle, InventoryItemDetailView.GetDetailsItem, hD] at hret
      | some w =>
        simp only [InventoryItemDetailView.Handle, InventoryItemDetailView.GetDetailsItem, hD,
          InventoryItemDetailView.store, InventoryListView.Handle]
        exact step_renamed X n d _ db I hD rfl
  | InventoryItemDeactivated =>
    rw [listHandle_deactivated]
    exact step_deactivated X db I
  | ItemsRemovedFromInventory c =>
    cases hD : db.Details X with
    | none =>
      simp [InventoryItemDetailView.Handle, InventoryItemDetailView.GetDetailsItem, hD] at hret
    | some d =>
      simp only [InventoryItemDetailView.Handle, InventoryItemDetailView.GetDetailsItem, hD,
        InventoryItemDetailView.store, InventoryListView.Handle]
      exact step_updated X d _ db I hD rfl
  | ItemsCheckedIntoInventory c =>
    cases hD : db.Details X with
    | none =>
      simp [InventoryItemDetailView.Handle, InventoryItemDetailView.GetDetailsItem, hD] at hret
    | some d =>
      simp only [InventoryItemDetailView.Handle, InventoryItemDetailView.GetDetailsItem, hD,
        InventoryItemDetailView.store, InventoryListView.Handle]
      exact step_updated X d _ db I hD rfl
  | other t => exact I

theorem run_viewsAgree (views : List Handler)
    (hViews : views = bothViews ∨ views = bothViewsRev)
    (msgs : List EventMessage) (db : InMemoryDatabase) (I : viewsAgree db)
    (hRun : (handleAll (publish views) msgs db).1 = .returned)
    (hFresh : freshCreations views msgs db = true) :
    viewsAgree (handleAll (publish views) msgs db).2 := by
  induction msgs generalizing db with
  | nil => exact I
  | cons m ms ih =>
    simp only [freshCreations, Bool.and_eq_true] at hFresh
    rcases hp : publish views m db with ⟨o, db1⟩
    rw [hp] at hFresh
    cases o with
    | returned =>
      obtain ⟨hret, hdb1⟩ := publish_returned views hViews m db db1 hp
      have I1 : viewsAgree db1 := by
        rw [hdb1]
        exact step_viewsAgree m db I hret hFresh.1
      simp only [handleAll, hp] at hRun ⊢
      exact ih db1 I1 hRun hFresh.2
    | fatal err => simp [handleAll, hp] at hRun
    | nilDereference => simp [handleAll, hp] at hRun

theorem handleAll_returned_left (h : Handler) (xs ys : List EventMessage) (db : InMemoryDatabase)
    (hRun : (handleAll h (xs ++ ys) db).1 = .returned) :
    (handleAll h xs db).1 = .returned := by
  rw [handleAll_append] at hRun
  rcases hx : handleAll h xs db with ⟨o, db1⟩
  rw [hx] at hRun
  cases o with
  | returned => rfl
  | fatal err => simp at hRun
  | nilDereference => simp at hRun

theorem freshCreations_left (views : List Handler) (xs ys : List EventMessage)
    (db : InMemoryDatabase) (hFresh : freshCreations views (xs ++ ys) db = true) :
    freshCreations views xs db = true := by
  induction xs generalizing db with
  | nil => rfl
  | cons m xs ih =>
    simp only [List.cons_append, freshCreations, Bool.and_eq_true] at hFresh ⊢
    exact ⟨hFresh.1, ih _ hFresh.2⟩

theorem viewsAgree_new : viewsAgree NewInMemoryDatabase := by
  refine ⟨?_, ?_, ?_⟩ <;> simp [NewInMemoryDatabase]

/-- Claim C13: let a sequence of messages be published to both views (registered in
either order) from the empty database, every call returning (no handler stops, in the
fatal branch or on a nil version) and no creation arriving for an identifier present
at that time.  Then
after every initial part of the sequence the list has no two entries with the same
ID, the IDs of the list are exactly the keys of the detail map, and every list entry
carries the name of the detail record of its ID. -/
theorem views_agree (views : List Handler) (hViews : views = bothViews ∨ views = bothViewsRev)
    (msgs initial rest : List EventMessage) (hSplit : msgs = initial ++ rest)
    (hRun : (handleAll (publish views) msgs NewInMemoryDatabase).1 = .returned)
    (hFresh : freshCreations views msgs NewInMemoryDatabase = true) :
    viewsAgree (handleAll (publish views) initial NewInMemoryDatabase).2 := by
  subst hSplit
  exact run_viewsAgree views hViews initial NewInMemoryDatabase viewsAgree_new
    (handleAll_returned_left _ initial rest _ hRun)
    (freshCreations_left views initial rest _ hFresh)

/-- Witness of C13: the two views agree after the first three messages of the
sequence with two items. -/
theorem views_agree_witness :
    (handleAll (publish bothViews) twoItemEvents NewInMemoryDatabase).1 = .returned
    ∧ freshCreations bothViews twoItemEvents NewInMemoryDatabase = true
    ∧ viewsAgree (handleAll (publish bothViews) (twoItemEvents.take 3) NewInMemoryDatabase).2 :=
  ⟨by decide, by decide,
   views_agree bothViews (Or.inl rfl) twoItemEvents (twoItemEvents.take 3)
    (twoItemEvents.drop 3) (by decide) (by decide) (by decide)⟩

/-! ## C14: get-by-id and the keys of the detail map -/

theorem store_keysMatchIDs (X : String) (d : InventoryItemDetailsDto) (db : InMemoryDatabase)
    (I : keysMatchIDs db) (hd : d.ID = X) :
    keysMatchIDs (InventoryItemDetailView.store X d db) := by
  intro id r hr
  by_cases hid : id = X
  · subst hid
    simp only [InventoryItemDetailView.store, Function.update_same, Option.some.injEq] at hr
    rw [← hr]
    exact hd
  · simp only [InventoryItemDetailView.store, Function.update_noteq hid] at hr
    exact I id r hr

theorem detailHandle_keysMatchIDs (m : EventMessage) (db : InMemoryDatabase)
    (I : keysMatchIDs db) : keysMatchIDs (InventoryItemDetailView.Handle m db).2 := by
  obtain ⟨X, e, v⟩ := m
  cases e with
  | InventoryItemCreated n =>
    exact store_keysMatchIDs X _ db I rfl
  | InventoryItemRenamed n =>
    cases hD : db.Details X with
    | none =>
      simpa [InventoryItemDetailView.Handle, InventoryItemDetailView.GetDetailsItem, hD] using I
    | some d =>
      cases v with
      | none =>
        simp only [InventoryItemDetailView.Handle, InventoryItemDetailView.GetDetailsItem, hD]
        exact store_keysMatchIDs X _ db I (I X d hD)
      | some w =>
        simp only [InventoryItemDetailView.Handle, InventoryItemDetailView.GetDetailsItem, hD]
        exact store_keysMatchIDs X _ db I (I X d hD)
  | InventoryItemDeactivated =>
    intro id r hr
    by_cases hid : id = X
    · subst hid
      simp [InventoryItemDetailView.Handle] at hr
    · simp only [InventoryItemDetailView.Handle, Function.update_noteq hid] at hr
      exact I id r hr
  | ItemsRemovedFromInventory c =>
    cases hD : db.Details X with
    | none =>
      simpa [InventoryItemDetailView.Handle, InventoryItemDetailView.GetDetailsItem, hD] using I
    | some d =>
      simp only [InventoryItemDetailView.Handle, InventoryItemDetailView.GetDetailsItem, hD]
      exact store_keysMatchIDs X _ db I (I X d hD)
  | ItemsCheckedIntoInventory c =>
    cases hD : db.Details X with
    | none =>
      simpa [InventoryItemDetailView.Handle, InventoryItemDetailView.GetDetailsItem, hD] using I
    | some d =>
      simp only [InventoryItemDetailView.Handle, InventoryItemDetailView.GetDetailsItem, hD]
      exact store_keysMatchIDs X _ db I (I X d hD)
  | other t => exact I

theorem handleAll_keysMatchIDs (msgs : List EventMessage) (db : InMemoryDatabase)
    (I : keysMatchIDs db) :
    keysMatchIDs (handleAll InventoryItemDetailView.Handle msgs db).2 := by
  induction msgs generalizing db with
  | nil => exact I
  | cons m ms ih =>
    have I1 := detailHandle_keysMatchIDs m db I
    rcases hm : InventoryItemDetailView.Handle m db with ⟨o, db1⟩
    rw [hm] at I1
    cases o with
    | returned => simpa [handleAll, hm] using ih db1 I1
    | fatal err => simpa [handleAll, hm] using I1
    | nilDereference => simpa [handleAll, hm] using I1

theorem getDetails_eq (id : String) (db : InMemoryDatabase) :
    ReadModel.GetInventoryItemDetails id db = db.Details id := by
  cases h : db.Details id <;> simp [ReadModel.GetInventoryItemDetails, h]

/-- Claim C14: after the detail view has processed any sequence of messages from the
empty database, `GetInventoryItemDetails id` is nil exactly when the detail map has
no key `id`, and otherwise it is the record stored under `id`, whose `ID` is `id`;
the two read operations return the database they were called on. -/
theorem get_by_id_consistent (msgs : List EventMessage) (id : String)
    (db : InMemoryDatabase) :
    (ReadModel.GetInventoryItemDetails id
        (handleAll InventoryItemDetailView.Handle msgs NewInMemoryDatabase).2 = none
      ↔ (handleAll InventoryItemDetailView.Handle msgs NewInMemoryDatabase).2.Details id = none)
    ∧ (∀ d, ReadModel.GetInventoryItemDetails id
          (handleAll InventoryItemDetailView.Handle msgs NewInMemoryDatabase).2 = some d →
        (handleAll InventoryItemDetailView.Handle msgs NewInMemoryDatabase).2.Details id = some d
        ∧ d.ID = id)
    ∧ (ReadModel.callGetInventoryItemDetails id db).2 = db
    ∧ (ReadModel.callGetInventoryItems db).2 = db := by
  have I : keysMatchIDs (handleAll InventoryItemDetailView.Handle msgs NewInMemoryDatabase).2 :=
    handleAll_keysMatchIDs msgs NewInMemoryDatabase (by
      intro k d hd
      simp [NewInMemoryDatabase] at hd)
  refine ⟨by rw [getDetails_eq], ?_, rfl, rfl⟩
  intro d hd
  rw [getDetails_eq] at hd
  exact ⟨hd, I id d hd⟩

/-- Witness of C14: after the sequence with two items, get-by-id of "B" gives the
record stored under "B", with ID "B", and get-by-id of "A" gives nil. -/
theorem get_by_id_consistent_witness :
    ReadModel.GetInventoryItemDetails "B"
        (handleAll InventoryItemDetailView.Handle twoItemEvents NewInMemoryDatabase).2
      = some { ID := "B", Name := "Bolt", CurrentCount := 0, Version := 0 }
    ∧ (handleAll InventoryItemDetailView.Handle twoItemEvents NewInMemoryDatabase).2.Details "B"
      = some { ID := "B", Name := "Bolt", CurrentCount := 0, Version := 0 }
    ∧ ReadModel.GetInventoryItemDetails "A"
        (handleAll InventoryItemDetailView.Handle twoItemEvents NewInMemoryDatabase).2 = none :=
  have h := get_by_id_consistent twoItemEvents "B" NewInMemoryDatabase
  have hA := get_by_id_consistent twoItemEvents "A" NewInMemoryDatabase
  ⟨by decide, (h.2.1 _ (by decide)).1, hA.1.mpr (by decide)⟩

/-! ## C15: creation of an identifier that is already present -/

theorem createTwiceThenDeactivate_run (X n1 n2 : String) (views : List Handler)
    (hViews : views = bothViews ∨ views = bothViewsRev) :
    handleAll (publish views) (createTwiceThenDeactivate X n1 n2) NewInMemoryDatabase
      = (.returned,
         { Details := Function.update (fun _ => none) X none,
           List := [{ ID := X, Name := n2 }] }) := by
  rcases hViews with rfl | rfl <;>
    simp [createTwiceThenDeactivate, handleAll, publish, bothViews, bothViewsRev, versioned,
      listHandle_created, listHandle_deactivated, InventoryItemDetailView.Handle,
      InventoryItemDetailView.store, NewInMemoryDatabase]

/-- Claim C15: a creation event for `X` makes the list the old list followed by one
more entry with ID `X` (so the number of entries with ID `X` grows by one) and makes
the detail record of `X` a fresh one with count 0 and version 0, whatever was there;
a deactivation removes the first list entry with ID `X` only; and after two creations
of `X` and one deactivation, published to both views in either order from the empty
database, the list still holds an entry with ID `X` while the detail map has no key
`X`. -/
theorem duplicate_creation (X n1 n2 : String) (v : Option Int) (db : InMemoryDatabase)
    (views : List Handler) (hViews : views = bothViews ∨ views = bothViewsRev) :
    (InventoryListView.Handle ⟨X, .InventoryItemCreated n1, v⟩ db).2.List
      = db.List ++ [{ ID := X, Name := n1 }]
    ∧ (InventoryListView.Handle ⟨X, .InventoryItemCreated n1, v⟩ db).2.List.countP
        (fun e => decide (e.ID = X))
      = db.List.countP (fun e => decide (e.ID = X)) + 1
    ∧ (InventoryItemDetailView.Handle ⟨X, .InventoryItemCreated n1, v⟩ db).2.Details X
      = some { ID := X, Name := n1, CurrentCount := 0, Version := 0 }
    ∧ (InventoryListView.Handle ⟨X, .InventoryItemDeactivated, v⟩ db).2.List
      = db.List.eraseP (fun e => decide (e.ID = X))
    ∧ (handleAll (publish views) (createTwiceThenDeactivate X n1 n2) NewInMemoryDatabase).1
      = .returned
    ∧ ReadModel.GetInventoryItems
        (handleAll (publish views) (createTwiceThenDeactivate X n1 n2) NewInMemoryDatabase).2
      = [{ ID := X, Name := n2 }]
    ∧ ReadModel.GetInventoryItemDetails X
        (handleAll (publish views) (createTwiceThenDeactivate X n1 n2) NewInMemoryDatabase).2
      = none := by
  rw [createTwiceThenDeactivate_run X n1 n2 views hViews, listHandle_deactivated,
    listHandle_created]
  refine ⟨rfl, ?_, ?_, rfl, rfl, rfl, ?_⟩
  · simp [List.countP_append]
  · simp [InventoryItemDetailView.Handle, InventoryItemDetailView.store]
  · simp [ReadModel.GetInventoryItemDetails]

/-- Witness of C15: "A" created as "Widget", created again as "Gadget", then
deactivated: the list still holds "A", the detail view does not. -/
theorem duplicate_creation_witness :
    ReadModel.GetInventoryItems
        (handleAll (publish bothViews) (createTwiceThenDeactivate "A" "Widget" "Gadget")
          NewInMemoryDatabase).2
      = [{ ID := "A", Name := "Gadget" }]
    ∧ ReadModel.GetInventoryItemDetails "A"
        (handleAll (publish bothViews) (createTwiceThenDeactivate "A" "Widget" "Gadget")
          NewInMemoryDatabase).2
      = none :=
  have h := duplicate_creation "A" "Widget" "Gadget" none NewInMemoryDatabase bothViews
    (Or.inl rfl)
  ⟨h.2.2.2.2.2.1, h.2.2.2.2.2.2⟩

/-! ## C16: the aggregate type passed to `Load` -/

/-- Claim C16: for every generic repository, identifier and two type names, both calls
of `Load` query the generic repository with the type name "InventoryItem" and the
identifier, and both return what `Load` makes of the answer to that one query. -/
theorem load_ignores_aggregate_type
    (repoLoad : String → String → AggregateValue × Option Error) (id t1 t2 : String) :
    InventoryItemRepo.loadQuery t1 id = ("InventoryItem", id)
    ∧ InventoryItemRepo.loadQuery t2 id = ("InventoryItem", id)
    ∧ InventoryItemRepo.Load repoLoad t1 id
        = InventoryItemRepo.loadResult (repoLoad "InventoryItem" id).1
            (repoLoad "InventoryItem" id).2
    ∧ InventoryItemRepo.Load repoLoad t1 id = InventoryItemRepo.Load repoLoad t2 id :=
  ⟨rfl, rfl, rfl, rfl⟩

/-- Witness of C16: a generic repository that names the query in its answer is asked
for "InventoryItem" whatever type name `Load` was given. -/
theorem load_ignores_aggregate_type_witness :
    echoRepository (InventoryItemRepo.loadQuery "Order" "42").1
        (InventoryItemRepo.loadQuery "Order" "42").2
      = (AggregateValue.otherType "InventoryItem/42", none)
    ∧ InventoryItemRepo.Load echoRepository "Order" "42"
      = InventoryItemRepo.Load echoRepository "Customer" "42" :=
  have h := load_ignores_aggregate_type echoRepository "42" "Order" "Customer"
  ⟨by rw [h.1]; decide, h.2.2.2⟩

end SimpleCQRS
